import Mathlib

/-!
# Baseline computation engine — a shallow embedding

This file embeds the core of the Baseline computation engine (the
compute-baseline package: keystoneDateToStatus, findKeystoneDate,
collateSupport, compareInitialSupport, the per-feature initial-support
walk, SupportStatement.supportedInDetails, Feature.supportedIn,
withAncestors, query and computeBaseline) and proves properties of the
embedding.

Modelling conventions:
* Temporal.PlainDate is a structure of year/month/day naturals;
  Temporal.PlainDate.compare is the lexicographic comparison cmpDate;
  date.add({months: 30}) is addMonths with day-of-month clamping
  (constrain overflow), as the Temporal polyfill computes it.
* A potentially ranged date string "YYYY-MM-DD" / "≤YYYY-MM-DD" is
  modelled as the structure RangedDate: the ISO date body and a Bool for
  the "≤" prefix.  ISO formatting and parsing are mutually inverse on
  valid dates, so parseRangedDateString and toRangedDateString become
  the projections and the constructor.
* A Release is referenced by its zero-based index into its Browser's
  ordered releases list; JavaScript object identity of releases within
  one browser coincides with index equality, and Release.compare is the
  index difference.
* A JavaScript Map is modelled as an insertion-ordered association list.
  Browser keys are browser id strings (the Compat context caches Browser
  objects per id, so object identity coincides with id equality).
* JavaScript exceptions are modelled with Except String.
-/

/-- Temporal.PlainDate: an ISO calendar date. -/
structure PlainDate where
  year : Nat
  month : Nat
  day : Nat
deriving DecidableEq

/-- Temporal.PlainDate.compare: lexicographic comparison of the ISO
date fields, returning -1, 0 or 1. -/
def cmpDate (a b : PlainDate) : Int :=
  if a.year < b.year then -1
  else if b.year < a.year then 1
  else if a.month < b.month then -1
  else if b.month < a.month then 1
  else if a.day < b.day then -1
  else if b.day < a.day then 1
  else 0

/-- Gregorian leap year (as the ISO calendar used by Temporal). -/
def isLeapYear (y : Nat) : Bool :=
  (y % 4 == 0 && y % 100 != 0) || y % 400 == 0

/-- Days in a month of the ISO calendar. -/
def daysInMonth (y m : Nat) : Nat :=
  if m == 2 then (if isLeapYear y then 29 else 28)
  else if m == 4 || m == 6 || m == 9 || m == 11 then 30
  else 31

/-- Temporal.PlainDate.add({months: n}) with the default constrain
overflow: months are added by calendar arithmetic and the day of month
is clamped to the length of the resulting month. -/
def addMonths (d : PlainDate) (n : Nat) : PlainDate :=
  let total := d.year * 12 + (d.month - 1) + n
  let y := total / 12
  let m := total % 12 + 1
  { year := y, month := m, day := min d.day (daysInMonth y m) }

/-- A date that a valid ISO date string can denote (what
Temporal.PlainDate.from accepts). -/
def PlainDate.valid (d : PlainDate) : Prop :=
  1 ≤ d.month ∧ d.month ≤ 12 ∧ 1 ≤ d.day ∧ d.day ≤ daysInMonth d.year d.month

instance (d : PlainDate) : Decidable d.valid := by
  unfold PlainDate.valid; infer_instance

/-- A potentially ranged date string "YYYY-MM-DD" or "≤YYYY-MM-DD":
the ISO date body plus whether the "≤" range specifier is present. -/
structure RangedDate where
  date : PlainDate
  ranged : Bool
deriving DecidableEq

/-- date-utils.js parseRangedDateString: split a potentially ranged date
string into the plain date and the ranged flag. -/
def parseRangedDateString (dateSpec : RangedDate) : PlainDate × Bool :=
  (dateSpec.date, dateSpec.ranged)

/-- date-utils.js toRangedDateString: format a date, with a ≤ range
specifier as needed. -/
def toRangedDateString (date : PlainDate) (ranged : Bool) : RangedDate :=
  { date := date, ranged := ranged }

/-- BASELINE_LOW_TO_HIGH_DURATION: Temporal.Duration.from({months: 30}),
as a number of months. -/
def BASELINE_LOW_TO_HIGH_DURATION : Nat := 30

/-- date-utils.js toHighDate: the low date plus 30 months. -/
def toHighDate (lowDate : PlainDate) : PlainDate :=
  addMonths lowDate BASELINE_LOW_TO_HIGH_DURATION

/-- The baseline field of a status: false, "low" or "high". -/
inductive BaselineValue where
  | isFalse
  | low
  | high
deriving DecidableEq

/-- The {baseline, baseline_low_date, baseline_high_date} triple that
keystoneDateToStatus returns. -/
structure StatusTriple where
  baseline : BaselineValue
  baseline_low_date : Option RangedDate
  baseline_high_date : Option RangedDate
deriving DecidableEq

/-- index.js keystoneDateToStatus: given a (possibly absent) keystone
date string, a cutoff date and a discouraged flag, determine the
Baseline status and the high and low dates. -/
def keystoneDateToStatus (dateSpec : Option RangedDate) (cutoffDate : PlainDate)
    (discouraged : Bool) : StatusTriple :=
  match dateSpec, discouraged with
  | none, _ =>
    { baseline := .isFalse, baseline_low_date := none, baseline_high_date := none }
  | some _, true =>
    { baseline := .isFalse, baseline_low_date := none, baseline_high_date := none }
  | some ds, false =>
    let p := parseRangedDateString ds
    let date := p.1
    let ranged := p.2
    let baseline_low_date := toRangedDateString date ranged
    let possibleHighDate := toHighDate date
    if cmpDate possibleHighDate cutoffDate ≤ 0 then
      { baseline := .high, baseline_low_date := some baseline_low_date,
        baseline_high_date := some (toRangedDateString possibleHighDate ranged) }
    else
      { baseline := .low, baseline_low_date := some baseline_low_date,
        baseline_high_date := none }

/-! ## Releases, browsers, initial support -/

/-- One entry of BCD browsers.(id).releases, after the Release Catalog
sorted the releases and assigned indices: the version string, the
optional release date (Release.date is null when release_date is
absent) and the lifecycle status. -/
structure ReleaseData where
  version : String
  release_date : Option PlainDate
  status : String
deriving DecidableEq

/-- A Browser after construction: its id and its ordered releases (the
zero-based position in this list is the Release's releaseIndex).  The
catalog construction itself (sorting by compareVersions, appending a
synthetic preview release) is outside the claims; browsers enter the
model already constructed. -/
structure Browser where
  id : String
  releases : List ReleaseData
deriving DecidableEq

/-- Browser.current(): the first release whose status is "current";
absence is an error.  Returns the release's index. -/
def Browser.currentIndex (b : Browser) : Except String Nat :=
  match b.releases.findIdx? (fun r => r.status == "current") with
  | some i => .ok i
  | none => .error (b.id ++ " does not have a \"current\" release")

/-- Browser.version(versionString): the first release with that exact
version string; absence is an error.  Returns the release's index. -/
def Browser.versionIndex (b : Browser) (versionString : String) : Except String Nat :=
  match b.releases.findIdx? (fun r => r.version == versionString) with
  | some i => .ok i
  | none => .error (b.id ++ " does not have a release " ++ versionString)

/-- Release.inRange(start, end?) for releases of one browser, on
release indices: inclusive lower bound, exclusive upper bound (when an
end is given). -/
def inRangeIdx (i start : Nat) (stop : Option Nat) : Bool :=
  match stop with
  | some e => start ≤ i && i < e
  | none => start ≤ i

/-- An InitialSupport: the release that most recently introduced
support for a feature in one browser (its index, date and version
flattened in), the ranged flag, and the display text, which the source
builds as the version string prefixed with "≤" exactly when ranged. -/
structure InitialSupport where
  releaseIndex : Nat
  releaseDate : Option PlainDate
  version : String
  ranged : Bool
  text : String
deriving DecidableEq

/-- support.js compareInitialSupport: compare two InitialSupports of
one browser by release (Release.compare is the index difference); on a
tie a ranged value sorts before an unranged one. -/
def compareInitialSupport (i1 i2 : InitialSupport) : Int :=
  if (i1.releaseIndex : Int) - (i2.releaseIndex : Int) = 0 then
    if i1.ranged && !i2.ranged then -1
    else if !i1.ranged && i2.ranged then 1
    else 0
  else (i1.releaseIndex : Int) - (i2.releaseIndex : Int)

/-- The comparator inlined in findKeystoneDate: compare by release
date (the call site has checked that no date is null; the default is
never read), and on a date tie a ranged value sorts before an unranged
one. -/
def keystoneCompare (i1 i2 : InitialSupport) : Int :=
  if cmpDate (i1.releaseDate.getD ⟨0, 1, 1⟩) (i2.releaseDate.getD ⟨0, 1, 1⟩) = 0 then
    if i1.ranged && !i2.ranged then -1
    else if !i1.ranged && i2.ranged then 1
    else 0
  else cmpDate (i1.releaseDate.getD ⟨0, 1, 1⟩) (i2.releaseDate.getD ⟨0, 1, 1⟩)

/-- list.sort(cmp).at(-1): the last element of the stable sort by a
consistent comparator, that is, the last element of the list that is
maximal under the comparator.  Computed as a left fold that replaces
the running maximum whenever the new element is not smaller. -/
def sortLast {α : Type} (cmp : α → α → Int) (l : List α) : Option α :=
  l.foldl
    (fun acc x =>
      match acc with
      | none => some x
      | some a => if cmp a x ≤ 0 then some x else some a)
    none

/-- A SupportMap: Map from browser (by id, see the conventions) to
InitialSupport or undefined, as an insertion-ordered association
list. -/
abbrev SupportMap : Type := List (String × Option InitialSupport)

/-- index.js findKeystoneDate: given the per-browser results, return
the most-recent release date (as a potentially ranged date string).
If a result is undefined, the list is empty, or a release date is
null, return null. -/
def findKeystoneDate (support : List (Option InitialSupport)) : Option RangedDate :=
  if support.contains none || support.length == 0 then none
  else
    let initialSupports := support.reduceOption
    if initialSupports.any (fun i => i.releaseDate.isNone) then none
    else
      match sortLast keystoneCompare initialSupports with
      | none => none
      | some keystone =>
        match keystone.releaseDate with
        | none => none
        | some d => some { date := d, ranged := keystone.ranged }

/-- The grouping pass of collateSupport: append the value to the
browser's list, creating the entry at the end on first sight (JS Map
insertion order). -/
def upsertValue (m : List (String × List (Option InitialSupport))) (b : String)
    (v : Option InitialSupport) : List (String × List (Option InitialSupport)) :=
  match m with
  | [] => [(b, [v])]
  | (k, l) :: rest =>
    if k = b then (k, l ++ [v]) :: rest else (k, l) :: upsertValue rest b v

/-- The collated map that index.js collateSupport builds in its first
loop: browser → every InitialSupport (or undefined) seen for it, in
encounter order. -/
def collateGroups (supports : List SupportMap) : List (String × List (Option InitialSupport)) :=
  supports.foldl
    (fun acc m => m.foldl (fun acc2 p => upsertValue acc2 p.1 p.2) acc)
    []

/-- index.js collateSupport: collate several support summaries, taking
the most-recent release for each browser; a browser any summary left
undefined stays undefined. -/
def collateSupport (supports : List SupportMap) : SupportMap :=
  (collateGroups supports).map
    (fun g =>
      (g.1,
        if g.2.contains none then none
        else sortLast compareInitialSupport g.2.reduceOption))

/-! ## Support statements and their resolution -/

/-- Feature.supportedIn's tri-state result: true (supported with no
qualifications), false (unsupported), or null (unknown). -/
inductive Tri where
  | yes
  | no
  | unknown
deriving DecidableEq

/-- The raw data of one SimpleSupportStatement, through the
SupportStatement getters: version_added is none exactly when the raw
field is false or absent, version_removed is none exactly when the raw
field is absent. -/
structure StatementData where
  version_added : Option String
  version_removed : Option String
  prefixQual : Option String
  alternative_name : Option String
  flags : List String
  partial_implementation : Bool
deriving DecidableEq

/-- supportStatements.js Qualifications: the non-plain caveats present
on a statement. -/
structure Qualifications where
  prefixQual : Option String
  alternative_name : Option String
  flags : List String
  partial_implementation : Bool
deriving DecidableEq

/-- supportStatements.js statementToQualifications. -/
def statementToQualifications (st : StatementData) : Qualifications :=
  { prefixQual := st.prefixQual
    alternative_name := st.alternative_name
    flags := st.flags
    partial_implementation := st.partial_implementation }

/-- Object.keys(qualifications).length: whether any qualification key
was set. -/
def qualsNonempty (q : Qualifications) : Bool :=
  q.prefixQual.isSome || q.alternative_name.isSome || !q.flags.isEmpty
    || q.partial_implementation

/-- v.startsWith("≤"), computed on the character list so that proofs
can evaluate it. -/
def startsWithLe (v : String) : Bool :=
  match v.data with
  | c :: _ => c == '≤'
  | [] => false

/-- supportStatements.js isRangedVersion on a possibly absent version
value. -/
def isRangedVersion (s : Option String) : Bool :=
  match s with
  | some v => startsWithLe v
  | none => false

/-- supportStatements.js isFixedVersion on a possibly absent version
value. -/
def isFixedVersion (s : Option String) : Bool :=
  match s with
  | some v => !startsWithLe v
  | none => false

/-- version.replaceAll("≤", ""): remove every ≤ (for a one-character
pattern, replaceAll is exactly the character filter). -/
def stripRanged (v : String) : String :=
  ⟨v.data.filter (fun ch => ch != '≤')⟩

/-- The result of SupportStatement.supportedInDetails: supported (with
its qualifications when any were present), unsupported, or unknown. -/
inductive SupportDetail where
  | supported (quals : Option Qualifications)
  | unsupported
  | unknownSupport
deriving DecidableEq

/-- supportStatements.js SupportStatement.supportedInDetails for a
release of the statement's browser, the release given by its index.
(The source's browser checks cannot fail here: the statement's browser
and the release's browser are the same model argument.)  releases[0]
is the release at index 0, so release.inRange(initial, x) is
inRangeIdx release 0 (some x). -/
def supportedInDetails (b : Browser) (st : StatementData) (release : Nat) :
    Except String SupportDetail :=
  match st.version_added with
  | none => .ok .unsupported
  | some va =>
    let qualifications := statementToQualifications st
    let asSupported : SupportDetail :=
      if qualsNonempty qualifications then .supported (some qualifications)
      else .supported none
    if isRangedVersion (some va) && isRangedVersion st.version_removed then
      match st.version_removed with
      | some vr => do
        let supportedIn ← b.versionIndex (stripRanged va)
        let unsupportedFrom ← b.versionIndex (stripRanged vr)
        if release = supportedIn then pure asSupported
        else if inRangeIdx release unsupportedFrom none then pure .unsupported
        else pure .unknownSupport
      | none => .error "unreachable: ranged version_removed is present"
    else if isFixedVersion (some va) && isRangedVersion st.version_removed then
      match st.version_removed with
      | some vr => do
        let supportedIn ← b.versionIndex va
        let unsupportedFrom ← b.versionIndex (stripRanged vr)
        if release = supportedIn then pure asSupported
        else if inRangeIdx release unsupportedFrom none
            || inRangeIdx release 0 (some supportedIn) then pure .unsupported
        else pure .unknownSupport
      | none => .error "unreachable: ranged version_removed is present"
    else do
      let start ← b.versionIndex (stripRanged va)
      let startRanged := isRangedVersion (some va)
      let stop ← match st.version_removed with
        | some vr => (some ·) <$> b.versionIndex vr
        | none => pure none
      if inRangeIdx release start stop then pure asSupported
      else if startRanged && inRangeIdx release 0 (some start) then pure .unknownSupport
      else pure .unsupported

/-- The loop body of Feature.supportedIn: scan the statements, return
true at the first plainly supported one, remember whether any was
unknown, and fall through to null or false. -/
def supportedInGo (b : Browser) (release : Nat) :
    List StatementData → Bool → Except String Tri
  | [], unknownFlag => .ok (if unknownFlag then .unknown else .no)
  | st :: rest, unknownFlag => do
    let supported ← supportedInDetails b st release
    match supported with
    | .supported none => pure .yes
    | .supported (some _) => supportedInGo b release rest unknownFlag
    | .unknownSupport => supportedInGo b release rest true
    | .unsupported => supportedInGo b release rest unknownFlag

/-- feature.js Feature.supportedIn: whether the feature's support data
says a release is supported plainly (true), unsupported (false) or
unknown (null), across the feature's statements for the release's
browser. -/
def featureSupportedIn (b : Browser) (stmts : List StatementData) (release : Nat) :
    Except String Tri :=
  supportedInGo b release stmts false

/-! ## The per-feature initial-support walk -/

/-- The walk of support.js support() after the first iteration set
lastInitial: examine earlier releases downward; unknown terminates with
the "≤" boundary, unsupported terminates with no boundary, supported
advances lastInitial.  Always called with lastInitial = i + 1. -/
def supportLoop (g : Nat → Tri) : Nat → Nat → Nat × Bool
  | lastInitial, 0 =>
    (match g 0 with
     | .unknown => (lastInitial, true)
     | .no => (lastInitial, false)
     | .yes => (0, false))
  | lastInitial, i + 1 =>
    (match g (i + 1) with
     | .unknown => (lastInitial, true)
     | .no => (lastInitial, false)
     | .yes => supportLoop g (i + 1) i)

/-- The whole walk of support.js support() for one browser, from the
current release's index down to 0, over a resolution function g from
release index to the feature-level tri-state: none when the first
iteration bails, otherwise the final lastInitial index and the ranged
flag (the boundary is "≤"). -/
def supportWalk (g : Nat → Tri) (current : Nat) : Option (Nat × Bool) :=
  match g current with
  | .no => none
  | .unknown => none
  | .yes =>
    match current with
    | 0 => some (0, false)
    | i + 1 => some (supportLoop g (i + 1) i)

/-- supportLoop with a fallible resolver (feature.supportedIn can
throw); an error in any examined release propagates. -/
def supportLoopE (f : Nat → Except String Tri) : Nat → Nat → Except String (Nat × Bool)
  | lastInitial, 0 => do
    let s ← f 0
    match s with
    | .unknown => pure (lastInitial, true)
    | .no => pure (lastInitial, false)
    | .yes => pure (0, false)
  | lastInitial, i + 1 => do
    let s ← f (i + 1)
    match s with
    | .unknown => pure (lastInitial, true)
    | .no => pure (lastInitial, false)
    | .yes => supportLoopE f (i + 1) i

/-- supportWalk with a fallible resolver. -/
def supportWalkE (f : Nat → Except String Tri) (current : Nat) :
    Except String (Option (Nat × Bool)) := do
  let s ← f current
  match s with
  | .no => pure none
  | .unknown => pure none
  | .yes =>
    match current with
    | 0 => pure (some (0, false))
    | i + 1 => do
      let r ← supportLoopE f (i + 1) i
      pure (some r)

/-- Build the InitialSupport that support.js records for a finished
walk: the release data of lastInitial, the ranged flag, and the text
lastInitialBoundary + version. -/
def mkInitialSupport (idx : Nat) (rd : ReleaseData) (ranged : Bool) : InitialSupport :=
  { releaseIndex := idx
    releaseDate := rd.release_date
    version := rd.version
    ranged := ranged
    text := (if ranged then "≤" else "") ++ rd.version }

/-- One browser's entry of support.js support(): anchor the walk at
current().releaseIndex, then build the InitialSupport (or undefined)
for the browser.  The release fetched at lastInitial exists whenever
the walk returned it (the walk's per-index assert is part of the
resolver in the pipeline). -/
def supportForBrowser (b : Browser) (f : Nat → Except String Tri) :
    Except String (Option InitialSupport) := do
  let current ← b.currentIndex
  let w ← supportWalkE f current
  match w with
  | none => pure none
  | some (idx, ranged) =>
    match b.releases.get? idx with
    | none => .error ("No index " ++ toString idx ++ " in " ++ b.id ++ " releases")
    | some rd => pure (some (mkInitialSupport idx rd ranged))

/-! ## The compat tree, queries and the top-level pipeline -/

/-- A feature node's __compat record: the per-browser support data
(browser id → the statement or statements, normalised to a list as
rawSupportStatements does) and status.deprecated. -/
structure CompatRecord where
  support : List (String × List StatementData)
  deprecated : Option Bool

/-- A node of the BCD tree: an indexable object, carrying an optional
__compat record and named children, or a non-indexable leaf value. -/
inductive BcdNode where
  | obj (compat : Option CompatRecord) (children : List (String × BcdNode))
  | leaf

/-- Whether a query result is an object that owns a __compat record
(the withAncestors test: typeof data === "object", data !== null,
"__compat" in data). -/
def nodeHasCompat (n : BcdNode) : Bool :=
  match n with
  | .obj (some _) _ => true
  | .obj none _ => false
  | .leaf => false

/-- query.js query, on the already split path: walk the tree; a
non-indexable value or a missing key is an error. -/
def queryPath (data : BcdNode) : List String → Except String BcdNode
  | [] => .ok data
  | next :: rest =>
    match data with
    | .leaf => .error ("unindexable at " ++ next)
    | .obj _ children =>
      match children.find? (fun p => p.1 == next) with
      | some p => queryPath p.2 rest
      | none => .error ("unindexable at " ++ next)

/-- path.split("."), computed on the character list so that proofs
can evaluate it. -/
def splitDots (s : String) : List String :=
  (s.data.splitOn '.').map (fun cs => String.mk cs)

/-- query.js query on a dotted path string. -/
def query (path : String) (data : BcdNode) : Except String BcdNode :=
  queryPath data (splitDots path)

/-- The Compat context as the pipeline reads it: the cutoff date (the
BCD __meta.timestamp instant converted to a UTC plain date), the
feature tree, and the constructed Browser per browser id. -/
structure CompatData where
  timestampDate : PlainDate
  tree : BcdNode
  browsersMap : List (String × Browser)

/-- Compat.browser(id): the cached Browser for an id; a missing id is
an error (the query for browsers.(id) fails). -/
def compatBrowser (c : CompatData) (id : String) : Except String Browser :=
  match c.browsersMap.find? (fun p => p.1 == id) with
  | some p => .ok p.2
  | none => .error ("browsers." ++ id ++ " is unindexable")

/-- core-browser-set.js identifiers. -/
def coreBrowserSet : List String :=
  ["chrome", "chrome_android", "edge", "firefox", "firefox_android", "safari", "safari_ios"]

/-- core-browser-set.js browsers(compat). -/
def browsersOf (c : CompatData) : Except String (List Browser) :=
  coreBrowserSet.mapM (compatBrowser c)

/-- The loop body of index.js withAncestors: extend the dotted prefix
one segment at a time, query it, and keep the prefixes whose node
carries a __compat record. -/
def withAncestorsGo (tree : BcdNode) (current : String) :
    List String → Except String (List String)
  | [] => .ok []
  | item :: rest => do
    let current2 := current ++ "." ++ item
    let data ← query current2 tree
    let tail ← withAncestorsGo tree current2 rest
    if nodeHasCompat data then pure (current2 :: tail) else pure tail

/-- index.js withAncestors: the key and its ancestor features (every
dotted prefix of at least two segments whose node has __compat), in
root-to-leaf order. -/
def withAncestors (compatKey : String) (c : CompatData) : Except String (List String) :=
  match splitDots compatKey with
  | [] => .ok []
  | first :: rest => withAncestorsGo c.tree first rest

/-- The per-index resolver that the pipeline runs inside the walk: the
loop's assert that the index is a release, then Feature.supportedIn
through the feature's statements for the browser (rawSupportStatements
errors when __compat or the browser's entry is missing). -/
def featureResolver (rec : Option CompatRecord) (b : Browser) (i : Nat) :
    Except String Tri :=
  if i < b.releases.length then
    match rec with
    | none => .error "This feature contains no __compat object."
    | some r =>
      match r.support.find? (fun p => p.1 == b.id) with
      | none => .error ("no support data for " ++ b.id)
      | some p => featureSupportedIn b p.2 i
  else .error ("No index " ++ toString i ++ " in " ++ b.id ++ " releases")

/-- support.js support(feature, browsers): map browsers to the release
that most recently introduced support for the feature. -/
def support (rec : Option CompatRecord) (bs : List Browser) : Except String SupportMap :=
  bs.mapM (fun b => do
    let v ← supportForBrowser b (featureResolver rec b)
    pure (b.id, v))

/-- The per-key status that index.js calculate returns. -/
structure KeyStatus where
  discouraged : Bool
  support : SupportMap
deriving DecidableEq

/-- index.js calculate: the feature for a compat key (an error when
the key resolves to a non-feature value), its discouraged flag
(deprecated ?? false), and its support across the core browser set.
In the source, feature(compatKey) reads the module's default compat
context; the model reads the context in play, which is the same
context whenever computeBaseline runs with its default argument (as
getStatus and the package's callers do). -/
def calculate (compatKey : String) (c : CompatData) : Except String KeyStatus := do
  let node ← query compatKey c.tree
  match node with
  | .leaf => .error (compatKey ++ " is not valid feature")
  | .obj rec _ => do
    let bs ← browsersOf c
    let sup ← support rec bs
    pure { discouraged := (rec.bind (fun r => r.deprecated)).getD false, support := sup }

/-- computeBaseline's featureSelector argument. -/
structure FeatureSelector where
  compatKeys : List String
  checkAncestors : Bool

/-- The full status record that index.js computeBaseline returns. -/
structure BaselineStatusR where
  baseline : BaselineValue
  baseline_low_date : Option RangedDate
  baseline_high_date : Option RangedDate
  discouraged : Bool
  support : SupportMap
deriving DecidableEq

/-- index.js computeBaseline: expand keys through withAncestors when
asked, calculate each key, collate the support maps, find the keystone
date over the concatenation of every per-key result, and derive the
status. -/
def computeBaseline (featureSelector : FeatureSelector) (c : CompatData) :
    Except String BaselineStatusR := do
  let cutoffDate := c.timestampDate
  let keys ←
    if featureSelector.checkAncestors then do
      let expanded ← featureSelector.compatKeys.mapM (fun key => withAncestors key c)
      pure expanded.flatten
    else pure featureSelector.compatKeys
  let statuses ← keys.mapM (fun key => calculate key c)
  let sup := collateSupport (statuses.map (fun s => s.support))
  let keystoneDate := findKeystoneDate
    (statuses.map (fun s => s.support.map (fun p => p.2))).flatten
  let discouraged := statuses.any (fun s => s.discouraged)
  let st := keystoneDateToStatus keystoneDate cutoffDate discouraged
  pure { baseline := st.baseline
         baseline_low_date := st.baseline_low_date
         baseline_high_date := st.baseline_high_date
         discouraged := discouraged
         support := sup }

/-! ## Spec-side definitions used to state the claims -/

/-- The specification's description of a finished initial-support
walk: the returned release r is at or below the anchor, support is
unbroken from r up to the anchor, and at the boundary below r the walk
saw unknown (ranged) or unsupported / the start of history (not
ranged). -/
def WalkSpec (g : Nat → Tri) (current r : Nat) (ranged : Bool) : Prop :=
  g current = .yes ∧ r ≤ current ∧
    (∀ j, r ≤ j → j ≤ current → g j = .yes) ∧
    ((ranged = true ∧ 0 < r ∧ g (r - 1) = .unknown) ∨
      (ranged = false ∧ (r = 0 ∨ g (r - 1) = .no)))

/-- The browsers a sequence of SupportMaps mentions, with the value
recorded for one of them: some input map carries the pair. -/
def entryOf (supports : List SupportMap) (b : String) (v : Option InitialSupport) : Prop :=
  ∃ m ∈ supports, (b, v) ∈ m

/-- Every value the input maps record for browser b, in encounter
order. -/
def perBrowserVals (supports : List SupportMap) (b : String) : List (Option InitialSupport) :=
  (supports.map (fun m => (m.filter (fun p => p.1 == b)).map (fun p => p.2))).flatten

/-- The list a grouped association list holds at a key ([] when the
key is absent). -/
def groupVals (m : List (String × List (Option InitialSupport))) (b : String) :
    List (Option InitialSupport) :=
  match m.find? (fun p => p.1 == b) with
  | some p => p.2
  | none => []

/-- The keystone date as computeBaseline computes it: over the
concatenation of every per-key support value, before aggregation. -/
def keystoneViaConcat (statuses : List KeyStatus) : Option RangedDate :=
  findKeystoneDate (statuses.map (fun s => s.support.map (fun p => p.2))).flatten

/-- The keystone date of the specification's data flow: over the
aggregated SupportMap that collateSupport produces. -/
def keystoneViaCollated (statuses : List KeyStatus) : Option RangedDate :=
  findKeystoneDate ((collateSupport (statuses.map (fun s => s.support))).map (fun p => p.2))

/-- The dotted prefixes of at least two segments that withAncestors
queries, in order. -/
def dottedPrefixesGo (current : String) : List String → List String
  | [] => []
  | item :: rest => (current ++ "." ++ item) :: dottedPrefixesGo (current ++ "." ++ item) rest

/-- All dotted prefixes of length at least two of a key. -/
def dottedPrefixes (key : String) : List String :=
  match splitDots key with
  | [] => []
  | first :: rest => dottedPrefixesGo first rest

/-! ## Concrete data for the counterexamples and witnesses -/

deriving instance DecidableEq for Except

/-- A two-release browser: version "1" (retired, no release date) and
version "2" (current, released 2020-01-01). -/
def chromeCex : Browser :=
  { id := "chrome"
    releases :=
      [ { version := "1", release_date := none, status := "retired" }
      , { version := "2", release_date := some ⟨2020, 1, 1⟩, status := "current" } ] }

/-- A one-release browser used for the six remaining core browsers in
the counterexamples, released 2019-01-01. -/
def simpleBrowser (id : String) : Browser :=
  { id := id
    releases := [ { version := "1", release_date := some ⟨2019, 1, 1⟩, status := "current" } ] }

/-- A support statement with only version_added set. -/
def vaOnly (va : String) : StatementData :=
  { version_added := some va
    version_removed := none
    prefixQual := none
    alternative_name := none
    flags := []
    partial_implementation := false }

/-- A support statement with version_added and version_removed set. -/
def vaVr (va vr : String) : StatementData :=
  { version_added := some va
    version_removed := some vr
    prefixQual := none
    alternative_name := none
    flags := []
    partial_implementation := false }

/-- A __compat record whose chrome statement is given and whose other
six core browsers are supported since their only release. -/
def cexRecord (chromeStmt : StatementData) : CompatRecord :=
  { support :=
      [ ("chrome", [chromeStmt])
      , ("chrome_android", [vaOnly "1"])
      , ("edge", [vaOnly "1"])
      , ("firefox", [vaOnly "1"])
      , ("firefox_android", [vaOnly "1"])
      , ("safari", [vaOnly "1"])
      , ("safari_ios", [vaOnly "1"]) ]
    deprecated := none }

/-- The compat context of the C6 counterexample: feature api.A is
supported in chrome only since version "2" (released 2020-01-01),
feature api.B since version "1" (which has no release date); the six
other core browsers support both features since their only release. -/
def cexCompat : CompatData :=
  { timestampDate := ⟨2025, 1, 1⟩
    tree :=
      .obj none
        [ ("api",
            .obj none
              [ ("A", .obj (some (cexRecord (vaOnly "2"))) [])
              , ("B", .obj (some (cexRecord (vaOnly "1"))) []) ]) ]
    browsersMap :=
      ("chrome", chromeCex) ::
        (["chrome_android", "edge", "firefox", "firefox_android", "safari", "safari_ios"].map
          (fun id => (id, simpleBrowser id))) }

/-- The statuses that calculate produces for the two keys of the C6
counterexample (computed from the pipeline itself). -/
def cexStatuses : List KeyStatus :=
  (["api.A", "api.B"].mapM (fun k => calculate k cexCompat)).toOption.getD []

/-- The browser of the C7 counterexample: version "1" is current and
version "2" is a beta release above it. -/
def c7Browser : Browser :=
  { id := "chrome"
    releases :=
      [ { version := "1", release_date := none, status := "current" }
      , { version := "2", release_date := none, status := "beta" } ] }

/-- The feature of the C7 counterexample: supported from version "1",
removed in version "2". -/
def c7Record : CompatRecord :=
  { support := [("chrome", [vaVr "1" "2"])], deprecated := none }

/-- The compat context of the C10 counterexample: the path a.b does
not exist in the tree (a is a leaf), so no dotted prefix of a.b
carries a __compat record, yet querying it is an error. -/
def c10Compat : CompatData :=
  { timestampDate := ⟨2025, 1, 1⟩
    tree := .obj none [("a", .leaf)]
    browsersMap := [] }

/-- The empty status that computeBaseline returns when it evaluates no
keys. -/
def emptyBaselineStatus : BaselineStatusR :=
  { baseline := .isFalse
    baseline_low_date := none
    baseline_high_date := none
    discouraged := false
    support := [] }

/-! ## Properties of the comparators -/

theorem cmpDate_self (a : PlainDate) : cmpDate a a = 0 := by
  simp [cmpDate]

theorem cmpDate_le_iff (a b : PlainDate) :
    cmpDate a b ≤ 0 ↔
      (a.year < b.year ∨ (a.year = b.year ∧
        (a.month < b.month ∨ (a.month = b.month ∧ a.day ≤ b.day)))) := by
  simp only [cmpDate]
  split_ifs <;> simp <;> omega

theorem cmpDate_eq_zero_iff (a b : PlainDate) : cmpDate a b = 0 ↔ a = b := by
  cases a; cases b
  simp only [cmpDate, PlainDate.mk.injEq]
  split_ifs <;> simp <;> omega

theorem cmpDate_total (a b : PlainDate) : cmpDate a b ≤ 0 ∨ cmpDate b a ≤ 0 := by
  rw [cmpDate_le_iff, cmpDate_le_iff]
  omega

theorem cmpDate_trans (a b c : PlainDate) (hab : cmpDate a b ≤ 0) (hbc : cmpDate b c ≤ 0) :
    cmpDate a c ≤ 0 := by
  rw [cmpDate_le_iff] at hab hbc ⊢
  omega

theorem cmpDate_le_antisymm (a b : PlainDate) (hab : cmpDate a b ≤ 0) (hba : cmpDate b a ≤ 0) :
    cmpDate a b = 0 := by
  rw [cmpDate_le_iff] at hab hba
  rw [cmpDate_eq_zero_iff]
  cases a; cases b
  simp only [PlainDate.mk.injEq]
  simp at hab hba
  omega

theorem cmpDate_lt_iff (a b : PlainDate) :
    cmpDate a b < 0 ↔
      (a.year < b.year ∨ (a.year = b.year ∧
        (a.month < b.month ∨ (a.month = b.month ∧ a.day < b.day)))) := by
  simp only [cmpDate]
  split_ifs <;> simp <;> omega

theorem cmpIS_le_iff (x y : InitialSupport) :
    compareInitialSupport x y ≤ 0 ↔
      (x.releaseIndex < y.releaseIndex ∨
        (x.releaseIndex = y.releaseIndex ∧ (x.ranged = true ∨ y.ranged = false))) := by
  simp only [compareInitialSupport]
  by_cases h0 : (x.releaseIndex : Int) - y.releaseIndex = 0
  · rw [if_pos h0]
    have heq : x.releaseIndex = y.releaseIndex := by omega
    cases hx : x.ranged <;> cases hy : y.ranged <;> simp_all
  · rw [if_neg h0]
    have hne : x.releaseIndex ≠ y.releaseIndex := by omega
    constructor
    · intro h
      left
      omega
    · rintro (h | ⟨h1, h2⟩)
      · omega
      · exact absurd h1 hne

theorem cmpIS_total (x y : InitialSupport) :
    compareInitialSupport x y ≤ 0 ∨ compareInitialSupport y x ≤ 0 := by
  rw [cmpIS_le_iff, cmpIS_le_iff]
  rcases Nat.lt_trichotomy x.releaseIndex y.releaseIndex with h | h | h
  · exact Or.inl (Or.inl h)
  · cases hy : y.ranged
    · exact Or.inl (Or.inr ⟨h, Or.inr rfl⟩)
    · exact Or.inr (Or.inr ⟨h.symm, Or.inl rfl⟩)
  · exact Or.inr (Or.inl h)

theorem cmpIS_trans (x y z : InitialSupport)
    (hxy : compareInitialSupport x y ≤ 0) (hyz : compareInitialSupport y z ≤ 0) :
    compareInitialSupport x z ≤ 0 := by
  rw [cmpIS_le_iff] at hxy hyz ⊢
  rcases hxy with h1 | ⟨h1, hr1⟩ <;> rcases hyz with h2 | ⟨h2, hr2⟩
  · left
    omega
  · left
    omega
  · left
    omega
  · right
    refine ⟨h1.trans h2, ?_⟩
    cases hx : x.ranged <;> cases hy : y.ranged <;> cases hz : z.ranged <;> simp_all

theorem kcmp_le_iff (x y : InitialSupport) :
    keystoneCompare x y ≤ 0 ↔
      (cmpDate (x.releaseDate.getD ⟨0, 1, 1⟩) (y.releaseDate.getD ⟨0, 1, 1⟩) < 0 ∨
        (x.releaseDate.getD ⟨0, 1, 1⟩ = y.releaseDate.getD ⟨0, 1, 1⟩ ∧
          (x.ranged = true ∨ y.ranged = false))) := by
  have hd := cmpDate_eq_zero_iff (x.releaseDate.getD ⟨0, 1, 1⟩) (y.releaseDate.getD ⟨0, 1, 1⟩)
  rw [← hd]
  simp only [keystoneCompare]
  by_cases h0 : cmpDate (x.releaseDate.getD ⟨0, 1, 1⟩) (y.releaseDate.getD ⟨0, 1, 1⟩) = 0
  · rw [if_pos h0]
    cases hx : x.ranged <;> cases hy : y.ranged <;> simp_all
  · rw [if_neg h0]
    constructor
    · intro h
      left
      omega
    · rintro (h | ⟨h1, h2⟩)
      · omega
      · exact absurd h1 h0

theorem kcmp_total (x y : InitialSupport) :
    keystoneCompare x y ≤ 0 ∨ keystoneCompare y x ≤ 0 := by
  rw [kcmp_le_iff, kcmp_le_iff]
  rcases cmpDate_total (x.releaseDate.getD ⟨0, 1, 1⟩) (y.releaseDate.getD ⟨0, 1, 1⟩) with h | h
  · rcases lt_or_eq_of_le h with h2 | h2
    · exact Or.inl (Or.inl h2)
    · have hd := (cmpDate_eq_zero_iff _ _).1 h2
      cases hy : y.ranged
      · exact Or.inl (Or.inr ⟨hd, Or.inr rfl⟩)
      · exact Or.inr (Or.inr ⟨hd.symm, Or.inl rfl⟩)
  · rcases lt_or_eq_of_le h with h2 | h2
    · exact Or.inr (Or.inl h2)
    · have hd := (cmpDate_eq_zero_iff _ _).1 h2
      cases hx : x.ranged
      · exact Or.inr (Or.inr ⟨hd, Or.inr rfl⟩)
      · exact Or.inl (Or.inr ⟨hd.symm, Or.inl rfl⟩)

theorem kcmp_trans (x y z : InitialSupport)
    (hxy : keystoneCompare x y ≤ 0) (hyz : keystoneCompare y z ≤ 0) :
    keystoneCompare x z ≤ 0 := by
  rw [kcmp_le_iff] at hxy hyz ⊢
  rcases hxy with h1 | ⟨h1, hr1⟩
  · rcases hyz with h2 | ⟨h2, hr2⟩
    · left
      rw [cmpDate_lt_iff] at h1 h2 ⊢
      omega
    · left
      rw [← h2]
      exact h1
  · rcases hyz with h2 | ⟨h2, hr2⟩
    · left
      rw [h1]
      exact h2
    · right
      refine ⟨h1.trans h2, ?_⟩
      cases hx : x.ranged <;> cases hy : y.ranged <;> cases hz : z.ranged <;> simp_all

theorem kcmp_antisymm (x y : InitialSupport)
    (hxy : keystoneCompare x y ≤ 0) (hyx : keystoneCompare y x ≤ 0) :
    x.releaseDate.getD ⟨0, 1, 1⟩ = y.releaseDate.getD ⟨0, 1, 1⟩ ∧ x.ranged = y.ranged := by
  rw [kcmp_le_iff] at hxy hyx
  rcases hxy with h1 | ⟨h1, hr1⟩ <;> rcases hyx with h2 | ⟨h2, hr2⟩
  · rw [cmpDate_lt_iff] at h1 h2
    omega
  · rw [h2, cmpDate_lt_iff] at h1
    omega
  · rw [h1, cmpDate_lt_iff] at h2
    omega
  · refine ⟨h1, ?_⟩
    cases hx : x.ranged <;> cases hy : y.ranged <;> simp_all

/-! ## Properties of sortLast -/

theorem sortLast_go_some {α : Type} (cmp : α → α → Int) (l : List α) (a : α) :
    ∃ x, l.foldl
        (fun acc x =>
          match acc with
          | none => some x
          | some a => if cmp a x ≤ 0 then some x else some a)
        (some a) = some x := by
  induction l generalizing a with
  | nil => exact ⟨a, rfl⟩
  | cons z t ih =>
    simp only [List.foldl_cons]
    by_cases h : cmp a z ≤ 0
    · rw [if_pos h]
      exact ih z
    · rw [if_neg h]
      exact ih a

theorem sortLast_isSome {α : Type} (cmp : α → α → Int) (l : List α) (h : l ≠ []) :
    ∃ x, sortLast cmp l = some x := by
  match l with
  | [] => exact absurd rfl h
  | z :: t =>
    simp only [sortLast, List.foldl_cons]
    exact sortLast_go_some cmp t z

theorem sortLast_go_spec {α : Type} (cmp : α → α → Int)
    (htot : ∀ a b, cmp a b ≤ 0 ∨ cmp b a ≤ 0)
    (htrans : ∀ a b c, cmp a b ≤ 0 → cmp b c ≤ 0 → cmp a c ≤ 0)
    (l : List α) (a x : α)
    (hx : l.foldl
        (fun acc x =>
          match acc with
          | none => some x
          | some a => if cmp a x ≤ 0 then some x else some a)
        (some a) = some x) :
    (x = a ∨ x ∈ l) ∧ cmp a x ≤ 0 ∧ ∀ y ∈ l, cmp y x ≤ 0 := by
  induction l generalizing a with
  | nil =>
    simp only [List.foldl_nil, Option.some.injEq] at hx
    subst hx
    refine ⟨Or.inl rfl, ?_, by simp⟩
    rcases htot a a with h | h <;> exact h
  | cons z t ih =>
    simp only [List.foldl_cons] at hx
    by_cases h : cmp a z ≤ 0
    · rw [if_pos h] at hx
      obtain ⟨hmem, hzx, hall⟩ := ih z hx
      refine ⟨?_, htrans a z x h hzx, ?_⟩
      · rcases hmem with h2 | h2
        · exact Or.inr (by simp [h2])
        · exact Or.inr (by simp [h2])
      · intro y hy
        rcases List.mem_cons.1 hy with h2 | h2
        · subst h2
          exact hzx
        · exact hall y h2
    · rw [if_neg h] at hx
      obtain ⟨hmem, hax, hall⟩ := ih a hx
      have hza : cmp z a ≤ 0 := by
        rcases htot a z with h2 | h2
        · exact absurd h2 h
        · exact h2
      refine ⟨?_, hax, ?_⟩
      · rcases hmem with h2 | h2
        · exact Or.inl h2
        · exact Or.inr (by simp [h2])
      · intro y hy
        rcases List.mem_cons.1 hy with h2 | h2
        · subst h2
          exact htrans y a x hza hax
        · exact hall y h2

theorem sortLast_spec {α : Type} (cmp : α → α → Int)
    (htot : ∀ a b, cmp a b ≤ 0 ∨ cmp b a ≤ 0)
    (htrans : ∀ a b c, cmp a b ≤ 0 → cmp b c ≤ 0 → cmp a c ≤ 0)
    (l : List α) (x : α) (hx : sortLast cmp l = some x) :
    x ∈ l ∧ ∀ y ∈ l, cmp y x ≤ 0 := by
  match l with
  | [] => simp [sortLast] at hx
  | z :: t =>
    simp only [sortLast, List.foldl_cons] at hx
    obtain ⟨hmem, hzx, hall⟩ := sortLast_go_spec cmp htot htrans t z x hx
    refine ⟨?_, ?_⟩
    · rcases hmem with h2 | h2
      · simp [h2]
      · simp [h2]
    · intro y hy
      rcases List.mem_cons.1 hy with h2 | h2
      · subst h2
        exact hzx
      · exact hall y h2

/-! ## Properties of the initial-support walk -/

theorem supportLoop_spec (g : Nat → Tri) :
    ∀ i r rng, supportLoop g (i + 1) i = (r, rng) →
      r ≤ i + 1 ∧ (∀ j, r ≤ j → j ≤ i → g j = .yes) ∧
      ((rng = true ∧ 0 < r ∧ g (r - 1) = .unknown) ∨
        (rng = false ∧ (r = 0 ∨ g (r - 1) = .no))) := by
  intro i
  induction i with
  | zero =>
    intro r rng h
    simp only [supportLoop] at h
    cases hg : g 0 <;> rw [hg] at h <;>
      simp only [Prod.mk.injEq] at h <;> obtain ⟨h1, h2⟩ := h <;> subst h1 <;> subst h2
    · refine ⟨by omega, ?_, Or.inr ⟨rfl, Or.inl rfl⟩⟩
      intro j hj1 hj2
      have : j = 0 := by omega
      rw [this]
      exact hg
    · exact ⟨by omega, by omega, Or.inr ⟨rfl, Or.inr (by simpa using hg)⟩⟩
    · exact ⟨by omega, by omega, Or.inl ⟨rfl, by omega, by simpa using hg⟩⟩
  | succ i ih =>
    intro r rng h
    simp only [supportLoop] at h
    cases hg : g (i + 1) <;> rw [hg] at h
    · obtain ⟨hle, hall, hbd⟩ := ih r rng h
      refine ⟨by omega, ?_, hbd⟩
      intro j hj1 hj2
      rcases Nat.lt_or_ge j (i + 1) with h2 | h2
      · exact hall j hj1 (by omega)
      · have : j = i + 1 := by omega
        rw [this]
        exact hg
    · simp only [Prod.mk.injEq] at h
      obtain ⟨h1, h2⟩ := h
      subst h1
      subst h2
      exact ⟨by omega, by omega, Or.inr ⟨rfl, Or.inr (by simpa using hg)⟩⟩
    · simp only [Prod.mk.injEq] at h
      obtain ⟨h1, h2⟩ := h
      subst h1
      subst h2
      exact ⟨by omega, by omega, Or.inl ⟨rfl, by omega, by simpa using hg⟩⟩

theorem supportWalk_none_iff (g : Nat → Tri) (current : Nat) :
    supportWalk g current = none ↔ g current ≠ .yes := by
  cases hg : g current <;> simp only [supportWalk, hg] <;> simp
  cases current <;> simp

theorem supportWalk_some_spec (g : Nat → Tri) (current r : Nat) (rng : Bool)
    (h : supportWalk g current = some (r, rng)) : WalkSpec g current r rng := by
  have hg : g current = .yes := by
    by_contra hne
    have hn := (supportWalk_none_iff g current).2 hne
    rw [hn] at h
    exact Option.noConfusion h
  unfold supportWalk at h
  rw [hg] at h
  match current, h with
  | 0, h =>
    simp only [Option.some.injEq, Prod.mk.injEq] at h
    obtain ⟨h1, h2⟩ := h
    subst h1
    subst h2
    refine ⟨hg, by omega, ?_, Or.inr ⟨rfl, Or.inl rfl⟩⟩
    intro j hj1 hj2
    have : j = 0 := by omega
    rw [this]
    exact hg
  | i + 1, h =>
    simp only [Option.some.injEq] at h
    obtain ⟨hle, hall, hbd⟩ := supportLoop_spec g i r rng h
    refine ⟨hg, hle, ?_, hbd⟩
    intro j hj1 hj2
    rcases Nat.lt_or_ge j (i + 1) with h2 | h2
    · exact hall j hj1 (by omega)
    · have : j = i + 1 := by omega
      rw [this]
      exact hg

theorem walkSpec_unique (g : Nat → Tri) (current r r' : Nat) (rng rng' : Bool)
    (h1 : WalkSpec g current r rng) (h2 : WalkSpec g current r' rng') :
    r = r' ∧ rng = rng' := by
  obtain ⟨hg1, hle1, hall1, hbd1⟩ := h1
  obtain ⟨hg2, hle2, hall2, hbd2⟩ := h2
  have hrr : r = r' := by
    rcases Nat.lt_trichotomy r r' with h | h | h
    · exfalso
      have hy : g (r' - 1) = .yes := hall1 (r' - 1) (by omega) (by omega)
      rcases hbd2 with ⟨_, hpos, hu⟩ | ⟨_, hc⟩
      · rw [hy] at hu
        exact Tri.noConfusion hu
      · rcases hc with h0 | hn
        · omega
        · rw [hy] at hn
          exact Tri.noConfusion hn
    · exact h
    · exfalso
      have hy : g (r - 1) = .yes := hall2 (r - 1) (by omega) (by omega)
      rcases hbd1 with ⟨_, hpos, hu⟩ | ⟨_, hc⟩
      · rw [hy] at hu
        exact Tri.noConfusion hu
      · rcases hc with h0 | hn
        · omega
        · rw [hy] at hn
          exact Tri.noConfusion hn
  subst hrr
  refine ⟨rfl, ?_⟩
  rcases hbd1 with ⟨e1, hpos, hu⟩ | ⟨e1, hc⟩ <;> rcases hbd2 with ⟨e2, hpos2, hu2⟩ | ⟨e2, hc2⟩
  · rw [e1, e2]
  · exfalso
    rcases hc2 with h0 | hn
    · omega
    · rw [hu] at hn
      exact Tri.noConfusion hn
  · exfalso
    rcases hc with h0 | hn
    · omega
    · rw [hu2] at hn
      exact Tri.noConfusion hn
  · rw [e1, e2]

theorem supportWalk_some_iff (g : Nat → Tri) (current r : Nat) (rng : Bool) :
    supportWalk g current = some (r, rng) ↔ WalkSpec g current r rng := by
  constructor
  · exact supportWalk_some_spec g current r rng
  · intro h
    have hg : g current = .yes := h.1
    rcases hw : supportWalk g current with w | ⟨r0, rng0⟩
    · rw [supportWalk_none_iff] at hw
      exact absurd hg hw
    · have h0 := supportWalk_some_spec g current r0 rng0 hw
      obtain ⟨hr, hrng⟩ := walkSpec_unique g current r0 r rng0 rng h0 h
      rw [hr, hrng]

theorem exceptOkBind {α β : Type} (a : α) (k : α → Except String β) :
    (Except.ok a >>= k) = k a := rfl

theorem exceptErrBind {α β : Type} (e : String) (k : α → Except String β) :
    ((Except.error e : Except String α) >>= k) = Except.error e := rfl

theorem exceptPure {α : Type} (a : α) : (pure a : Except String α) = Except.ok a := rfl

theorem supportLoopE_pure (f : Nat → Except String Tri) (g : Nat → Tri) :
    ∀ i last, (∀ j, j ≤ i → f j = .ok (g j)) →
      supportLoopE f last i = .ok (supportLoop g last i) := by
  intro i
  induction i with
  | zero =>
    intro last hf
    have h0 := hf 0 (by omega)
    simp only [supportLoopE, supportLoop, h0, exceptOkBind]
    cases g 0 <;> rfl
  | succ i ih =>
    intro last hf
    have h0 := hf (i + 1) (by omega)
    simp only [supportLoopE, supportLoop, h0, exceptOkBind]
    cases hg : g (i + 1)
    · exact ih (i + 1) (fun j hj => hf j (by omega))
    · rfl
    · rfl

theorem supportWalkE_pure (f : Nat → Except String Tri) (g : Nat → Tri) (current : Nat)
    (hf : ∀ j, j ≤ current → f j = .ok (g j)) :
    supportWalkE f current = .ok (supportWalk g current) := by
  have h0 := hf current (by omega)
  simp only [supportWalkE, supportWalk, h0, exceptOkBind]
  cases hg : g current
  · match current with
    | 0 => rfl
    | i + 1 =>
      have hl := supportLoopE_pure f g i (i + 1) (fun j hj => hf j (by omega))
      simp only [hl, exceptOkBind, exceptPure]
  · rfl
  · rfl

theorem supportForBrowser_elim (b : Browser) (f : Nat → Except String Tri)
    (g : Nat → Tri) (current : Nat)
    (hcur : b.currentIndex = .ok current)
    (hf : ∀ j, j ≤ current → f j = .ok (g j)) :
    supportForBrowser b f =
      match supportWalk g current with
      | none => Except.ok none
      | some (idx, ranged) =>
        match b.releases.get? idx with
        | none => Except.error ("No index " ++ toString idx ++ " in " ++ b.id ++ " releases")
        | some rd => Except.ok (some (mkInitialSupport idx rd ranged)) := by
  simp only [supportForBrowser, hcur, exceptOkBind, supportWalkE_pure f g current hf]
  rcases supportWalk g current with w | ⟨idx, ranged⟩
  · rfl
  · simp only
    rcases b.releases.get? idx with rd | rd
    · rfl
    · rfl

/-! ## Properties of the collation -/

theorem groupVals_upsert (m : List (String × List (Option InitialSupport)))
    (k b : String) (v : Option InitialSupport) :
    groupVals (upsertValue m k v) b =
      if b = k then groupVals m b ++ [v] else groupVals m b := by
  induction m with
  | nil =>
    simp only [upsertValue, groupVals, List.find?]
    by_cases h : b = k
    · subst h
      simp
    · have : (k == b) = false := by
        simp [beq_iff_eq]
        exact fun he => h he.symm
      simp [this, h]
  | cons p rest ih =>
    obtain ⟨pk, pl⟩ := p
    simp only [upsertValue]
    by_cases hpk : pk = k
    · rw [if_pos hpk]
      subst hpk
      by_cases hb : b = pk
      · subst hb
        simp [groupVals, List.find?]
      · have hne : (pk == b) = false := by
          simp [beq_iff_eq]
          exact fun he => hb he.symm
        simp [groupVals, List.find?, hne, hb]
    · rw [if_neg hpk]
      by_cases hb : b = pk
      · subst hb
        simp [groupVals, List.find?, if_neg hpk]
      · have hne : (pk == b) = false := by
          simp [beq_iff_eq]
          exact fun he => hb he.symm
        simp only [groupVals, List.find?, hne]
        exact ih

theorem groupVals_foldMap (m : SupportMap) :
    ∀ (acc : List (String × List (Option InitialSupport))) (b : String),
      groupVals (m.foldl (fun a p => upsertValue a p.1 p.2) acc) b =
        groupVals acc b ++ (m.filter (fun p => p.1 == b)).map (fun p => p.2) := by
  induction m with
  | nil => simp
  | cons p rest ih =>
    intro acc b
    simp only [List.foldl_cons, ih, groupVals_upsert, List.filter_cons]
    by_cases hb : b = p.1
    · have : (p.1 == b) = true := by simp [beq_iff_eq, hb.symm]
      rw [if_pos hb, this]
      simp
    · have : (p.1 == b) = false := by
        simp [beq_iff_eq]
        exact fun he => hb he.symm
      rw [if_neg hb, this]
      simp

theorem groupVals_collateGroups (supports : List SupportMap) (b : String) :
    groupVals (collateGroups supports) b = perBrowserVals supports b := by
  suffices h : ∀ (acc : List (String × List (Option InitialSupport))),
      groupVals (supports.foldl (fun acc m => m.foldl (fun a p => upsertValue a p.1 p.2) acc) acc) b =
        groupVals acc b ++ perBrowserVals supports b by
    have := h []
    simpa [collateGroups, groupVals] using this
  induction supports with
  | nil => simp [perBrowserVals]
  | cons m rest ih =>
    intro acc
    simp only [List.foldl_cons, ih, groupVals_foldMap]
    simp [perBrowserVals]

theorem upsert_preserves (P : (String × List (Option InitialSupport)) → Prop)
    (m : List (String × List (Option InitialSupport))) (k : String) (v : Option InitialSupport)
    (hm : ∀ p ∈ m, P p)
    (hnew : P (k, [v]))
    (hext : ∀ kk l, P (kk, l) → P (kk, l ++ [v])) :
    ∀ p ∈ upsertValue m k v, P p := by
  induction m with
  | nil =>
    intro p hp
    simp only [upsertValue, List.mem_singleton] at hp
    subst hp
    exact hnew
  | cons q rest ih =>
    obtain ⟨qk, ql⟩ := q
    intro p hp
    simp only [upsertValue] at hp
    by_cases hq : qk = k
    · rw [if_pos hq] at hp
      rcases List.mem_cons.1 hp with h | h
      · subst h
        exact hext qk ql (hm (qk, ql) (by simp))
      · exact hm p (List.mem_cons_of_mem _ h)
    · rw [if_neg hq] at hp
      rcases List.mem_cons.1 hp with h | h
      · subst h
        exact hm (qk, ql) (by simp)
      · exact ih (fun p hp => hm p (List.mem_cons_of_mem _ hp)) p h

theorem collateGroups_vals_ne_nil (supports : List SupportMap) :
    ∀ p ∈ collateGroups supports, p.2 ≠ [] := by
  suffices h : ∀ (acc : List (String × List (Option InitialSupport))),
      (∀ p ∈ acc, p.2 ≠ []) →
      ∀ p ∈ supports.foldl (fun acc m => m.foldl (fun a p => upsertValue a p.1 p.2) acc) acc,
        p.2 ≠ [] by
    exact h [] (by simp)
  induction supports with
  | nil =>
    intro acc hacc
    simpa using hacc
  | cons m rest ih =>
    intro acc hacc
    simp only [List.foldl_cons]
    refine ih _ ?_
    clear ih
    induction m generalizing acc with
    | nil => simpa using hacc
    | cons q mt ihm =>
      simp only [List.foldl_cons]
      refine ihm _ ?_
      exact upsert_preserves (fun p => p.2 ≠ []) acc q.1 q.2 hacc (by simp) (by simp)

theorem find_of_mem_nodup {β : Type} (m : List (String × β))
    (h : (m.map Prod.fst).Nodup) (b : String) (l : β) (hm : (b, l) ∈ m) :
    m.find? (fun p => p.1 == b) = some (b, l) := by
  induction m with
  | nil => simp at hm
  | cons q rest ih =>
    obtain ⟨qk, ql⟩ := q
    simp only [List.map_cons, List.nodup_cons] at h
    obtain ⟨hnotin, hnd⟩ := h
    rcases List.mem_cons.1 hm with he | he
    · rw [← he]
      simp [List.find?]
    · have hne : qk ≠ b := by
        intro hq
        subst hq
        exact hnotin (by simpa using List.mem_map_of_mem Prod.fst he)
      have : (qk == b) = false := by simp [beq_iff_eq, hne]
      simp only [List.find?, this]
      exact ih hnd he

theorem keys_upsert (m : List (String × List (Option InitialSupport)))
    (k : String) (v : Option InitialSupport) :
    (upsertValue m k v).map Prod.fst =
      if k ∈ m.map Prod.fst then m.map Prod.fst else m.map Prod.fst ++ [k] := by
  induction m with
  | nil => simp [upsertValue]
  | cons q rest ih =>
    obtain ⟨qk, ql⟩ := q
    simp only [upsertValue, List.map_cons, List.mem_cons]
    by_cases hq : qk = k
    · subst hq
      simp
    · rw [if_neg hq, List.map_cons, ih]
      by_cases hk : k ∈ rest.map Prod.fst
      · rw [if_pos hk, if_pos (Or.inr hk)]
      · rw [if_neg hk, if_neg ?_]
        · simp
        · rintro (he | he)
          · exact hq he.symm
          · exact hk he

theorem keys_nodup_upsert (m : List (String × List (Option InitialSupport)))
    (k : String) (v : Option InitialSupport) (h : (m.map Prod.fst).Nodup) :
    ((upsertValue m k v).map Prod.fst).Nodup := by
  rw [keys_upsert]
  by_cases hk : k ∈ m.map Prod.fst
  · rwa [if_pos hk]
  · rw [if_neg hk]
    simp [List.nodup_append, h, hk]

theorem collateGroups_keys_nodup (supports : List SupportMap) :
    ((collateGroups supports).map Prod.fst).Nodup := by
  suffices h : ∀ (acc : List (String × List (Option InitialSupport))),
      (acc.map Prod.fst).Nodup →
      ((supports.foldl (fun acc m => m.foldl (fun a p => upsertValue a p.1 p.2) acc) acc).map
        Prod.fst).Nodup by
    exact h [] (by simp)
  induction supports with
  | nil =>
    intro acc hacc
    simpa using hacc
  | cons m rest ih =>
    intro acc hacc
    simp only [List.foldl_cons]
    refine ih _ ?_
    clear ih
    induction m generalizing acc with
    | nil => simpa using hacc
    | cons q mt ihm =>
      simp only [List.foldl_cons]
      exact ihm _ (keys_nodup_upsert acc q.1 q.2 hacc)

theorem mem_perBrowserVals (supports : List SupportMap) (b : String) (v : Option InitialSupport) :
    v ∈ perBrowserVals supports b ↔ entryOf supports b v := by
  unfold perBrowserVals entryOf
  rw [List.mem_flatten]
  constructor
  · rintro ⟨l, hl, hv⟩
    obtain ⟨m, hm, rfl⟩ := List.mem_map.1 hl
    obtain ⟨p, hp, hpv⟩ := List.mem_map.1 hv
    obtain ⟨hpm, hpb⟩ := List.mem_filter.1 hp
    obtain ⟨p1, p2⟩ := p
    simp only [beq_iff_eq] at hpb
    subst hpb
    cases hpv
    exact ⟨m, hm, hpm⟩
  · rintro ⟨m, hm, hv⟩
    refine ⟨(m.filter (fun p => p.1 == b)).map (fun p => p.2), List.mem_map_of_mem _ hm, ?_⟩
    exact List.mem_map.2 ⟨(b, v), List.mem_filter.2 ⟨hv, by simp⟩, rfl⟩

theorem mem_collateGroups_eq (supports : List SupportMap) (b : String)
    (l : List (Option InitialSupport)) (h : (b, l) ∈ collateGroups supports) :
    l = perBrowserVals supports b := by
  have hf := find_of_mem_nodup (collateGroups supports) (collateGroups_keys_nodup supports) b l h
  have := groupVals_collateGroups supports b
  rw [groupVals, hf] at this
  exact this

theorem exists_collateGroup_iff (supports : List SupportMap) (b : String) :
    (∃ l, (b, l) ∈ collateGroups supports) ↔ perBrowserVals supports b ≠ [] := by
  constructor
  · rintro ⟨l, hl⟩
    have hne := collateGroups_vals_ne_nil supports (b, l) hl
    rw [mem_collateGroups_eq supports b l hl] at hne
    exact hne
  · intro hne
    have hg := groupVals_collateGroups supports b
    rcases hfind : (collateGroups supports).find? (fun p => p.1 == b) with p | p
    · rw [groupVals, hfind] at hg
      exact absurd hg.symm hne
    · have hmem := List.mem_of_find?_eq_some hfind
      have hb : p.1 = b := by
        have := List.find?_some hfind
        simpa [beq_iff_eq] using this
      exact ⟨p.2, by rwa [← hb, Prod.mk.eta]⟩

theorem mem_collateSupport_iff (supports : List SupportMap) (b : String)
    (v : Option InitialSupport) :
    (b, v) ∈ collateSupport supports ↔
      ∃ l, (b, l) ∈ collateGroups supports ∧
        v = (if l.contains none then none
             else sortLast compareInitialSupport l.reduceOption) := by
  simp only [collateSupport, List.mem_map]
  constructor
  · rintro ⟨g, hg, he⟩
    obtain ⟨g1, g2⟩ := g
    simp only [Prod.mk.injEq] at he
    obtain ⟨he1, he2⟩ := he
    subst he1
    exact ⟨g2, hg, he2.symm⟩
  · rintro ⟨l, hl, hv⟩
    exact ⟨(b, l), hl, by simp [hv]⟩

/-! ## Properties of findKeystoneDate -/

theorem findKeystoneDate_none_of (l : List (Option InitialSupport))
    (h : none ∈ l ∨ ∃ i, some i ∈ l ∧ i.releaseDate = none) :
    findKeystoneDate l = none := by
  unfold findKeystoneDate
  rcases h with h | ⟨i, hi, hd⟩
  · have hc : l.contains none = true := List.elem_iff.2 h
    rw [hc]
    simp
  · by_cases hc : l.contains none = true
    · rw [hc]
      simp
    · have hcf : l.contains none = false := by rwa [Bool.not_eq_true] at hc
      have ha : l.reduceOption.any (fun i => i.releaseDate.isNone) = true := by
        refine List.any_eq_true.2 ⟨i, List.reduceOption_mem_iff.2 hi, ?_⟩
        simp [hd]
      by_cases hl : (l.length == 0) = true
      · simp [hcf, hl]
      · simp only [Bool.not_eq_true] at hl
        simp [hcf, hl, ha]

theorem reduceOption_ne_nil (l : List (Option InitialSupport))
    (hne : l ≠ []) (hnu : none ∉ l) : l.reduceOption ≠ [] := by
  match l with
  | [] => exact absurd rfl hne
  | o :: t =>
    match o with
    | none => exact absurd (by simp) hnu
    | some a =>
      intro h
      have : a ∈ (some a :: t).reduceOption := List.reduceOption_mem_iff.2 (by simp)
      rw [h] at this
      exact List.not_mem_nil a this

theorem findKeystoneDate_some_spec (l : List (Option InitialSupport))
    (hne : l ≠ []) (hnu : none ∉ l)
    (hdates : ∀ i, some i ∈ l → i.releaseDate ≠ none) :
    ∃ chosen dt, chosen ∈ l.reduceOption ∧
      (∀ x ∈ l.reduceOption, keystoneCompare x chosen ≤ 0) ∧
      chosen.releaseDate = some dt ∧
      findKeystoneDate l = some { date := dt, ranged := chosen.ranged } := by
  have hc : l.contains none = false := by
    rw [Bool.eq_false_iff]
    intro h
    exact hnu (List.elem_iff.1 h)
  have hl0 : (l.length == 0) = false := by
    simp [List.length_eq_zero]
    exact hne
  have ha : l.reduceOption.any (fun i => i.releaseDate.isNone) = false := by
    rw [Bool.eq_false_iff]
    intro h
    obtain ⟨i, hi, hp⟩ := List.any_eq_true.1 h
    exact hdates i (List.reduceOption_mem_iff.1 hi) (by simpa using hp)
  obtain ⟨chosen, hchosen⟩ :=
    sortLast_isSome keystoneCompare l.reduceOption (reduceOption_ne_nil l hne hnu)
  obtain ⟨hmem, hmax⟩ := sortLast_spec keystoneCompare kcmp_total kcmp_trans
    l.reduceOption chosen hchosen
  rcases hdt : chosen.releaseDate with dt | dt
  · exact absurd hdt (hdates chosen (List.reduceOption_mem_iff.1 hmem))
  · refine ⟨chosen, dt, hmem, hmax, hdt, ?_⟩
    unfold findKeystoneDate
    simp only [hc, hl0, ha, hchosen, hdt, Bool.or_self, Bool.false_eq_true, if_false]

/-! ## The claims -/

theorem cmpDate_le_addMonths30 (dt : PlainDate) : cmpDate dt (addMonths dt 30) ≤ 0 := by
  rw [cmpDate_le_iff]
  left
  simp only [addMonths]
  omega

/-- C1: keystoneDateToStatus returns the all-false triple when the
keystone is null or discouraged is true; otherwise, with (date, ranged)
= parse(keystone), it returns baseline "low" with the formatted low
date and a null high date, except that when date + 30 months ≤ cutoff
it returns baseline "high" with the formatted high date.  Consequently
baseline == false iff baseline_low_date is null, and a "high" status
has both dates with low ≤ high. -/
theorem c1_keystoneDateToStatus (k : Option RangedDate) (c : PlainDate) (d : Bool) :
    ((k = none ∨ d = true) →
      keystoneDateToStatus k c d =
        { baseline := .isFalse, baseline_low_date := none, baseline_high_date := none }) ∧
    (∀ ds, k = some ds → d = false →
      (cmpDate (toHighDate (parseRangedDateString ds).1) c ≤ 0 →
        keystoneDateToStatus k c d =
          { baseline := .high,
            baseline_low_date :=
              some (toRangedDateString (parseRangedDateString ds).1 (parseRangedDateString ds).2),
            baseline_high_date :=
              some (toRangedDateString (toHighDate (parseRangedDateString ds).1)
                (parseRangedDateString ds).2) }) ∧
      (¬ cmpDate (toHighDate (parseRangedDateString ds).1) c ≤ 0 →
        keystoneDateToStatus k c d =
          { baseline := .low,
            baseline_low_date :=
              some (toRangedDateString (parseRangedDateString ds).1 (parseRangedDateString ds).2),
            baseline_high_date := none })) ∧
    ((keystoneDateToStatus k c d).baseline = .isFalse ↔
      (keystoneDateToStatus k c d).baseline_low_date = none) ∧
    ((keystoneDateToStatus k c d).baseline = .high →
      ∃ lo hi, (keystoneDateToStatus k c d).baseline_low_date = some lo ∧
        (keystoneDateToStatus k c d).baseline_high_date = some hi ∧
        cmpDate lo.date hi.date ≤ 0) := by
  refine ⟨?_, ?_, ?_, ?_⟩
  · rintro (rfl | rfl)
    · rfl
    · cases k <;> rfl
  · rintro ds rfl rfl
    constructor
    · intro h
      simp only [parseRangedDateString] at h
      simp only [keystoneDateToStatus, parseRangedDateString]
      rw [if_pos h]
    · intro h
      simp only [parseRangedDateString] at h
      simp only [keystoneDateToStatus, parseRangedDateString]
      rw [if_neg h]
  · cases k with
    | none => cases d <;> simp [keystoneDateToStatus]
    | some ds =>
      cases d with
      | true => simp [keystoneDateToStatus]
      | false =>
        simp only [keystoneDateToStatus, parseRangedDateString]
        split_ifs <;> simp
  · cases k with
    | none => cases d <;> simp [keystoneDateToStatus]
    | some ds =>
      cases d with
      | true => simp [keystoneDateToStatus]
      | false =>
        simp only [keystoneDateToStatus, parseRangedDateString]
        split_ifs with h
        · intro _
          exact ⟨_, _, rfl, rfl, cmpDate_le_addMonths30 ds.date⟩
        · intro hb
          exact absurd hb (by simp)

/-- C8: with discouraged false and cutoffs c1 ≤ c2, if the status at
c1 is not "high" then the status at c2 is the identical result or the
same result upgraded to "high" (high date filled in); in particular
baseline_low_date does not change. -/
theorem c8_cutoff_monotone (k : Option RangedDate) (c1 c2 : PlainDate)
    (_hc : cmpDate c1 c2 ≤ 0)
    (h : (keystoneDateToStatus k c1 false).baseline ≠ .high) :
    keystoneDateToStatus k c2 false = keystoneDateToStatus k c1 false ∨
    ((keystoneDateToStatus k c2 false).baseline = .high ∧
      (keystoneDateToStatus k c2 false).baseline_low_date =
        (keystoneDateToStatus k c1 false).baseline_low_date ∧
      (keystoneDateToStatus k c2 false).baseline_high_date.isSome = true) := by
  cases k with
  | none => exact Or.inl rfl
  | some ds =>
    simp only [keystoneDateToStatus, parseRangedDateString] at h ⊢
    by_cases h2 : cmpDate (toHighDate ds.date) c2 ≤ 0
    · by_cases h1 : cmpDate (toHighDate ds.date) c1 ≤ 0
      · rw [if_pos h1] at h
        exact absurd rfl h
      · rw [if_pos h2, if_neg h1]
        exact Or.inr ⟨rfl, rfl, rfl⟩
    · by_cases h1 : cmpDate (toHighDate ds.date) c1 ≤ 0
      · rw [if_pos h1] at h
        exact absurd rfl h
      · rw [if_neg h2, if_neg h1]
        exact Or.inl rfl

/-- C8 witness at a concrete keystone and cutoff pair. -/
theorem c8_cutoff_monotone_witness :
    keystoneDateToStatus (some ⟨⟨2020, 1, 1⟩, false⟩) ⟨2030, 1, 1⟩ false =
        keystoneDateToStatus (some ⟨⟨2020, 1, 1⟩, false⟩) ⟨2020, 1, 1⟩ false ∨
      ((keystoneDateToStatus (some ⟨⟨2020, 1, 1⟩, false⟩) ⟨2030, 1, 1⟩ false).baseline = .high ∧
        (keystoneDateToStatus (some ⟨⟨2020, 1, 1⟩, false⟩) ⟨2030, 1, 1⟩ false).baseline_low_date =
          (keystoneDateToStatus (some ⟨⟨2020, 1, 1⟩, false⟩) ⟨2020, 1, 1⟩ false).baseline_low_date ∧
        (keystoneDateToStatus (some ⟨⟨2020, 1, 1⟩, false⟩) ⟨2030, 1, 1⟩
            false).baseline_high_date.isSome = true) :=
  c8_cutoff_monotone (some ⟨⟨2020, 1, 1⟩, false⟩) ⟨2020, 1, 1⟩ ⟨2030, 1, 1⟩
    (by decide) (by decide)

/-- C9: a status with baseline "high" carries two date strings whose
parses differ by exactly 30 calendar months (the high date is the low
date plus 30 months of calendar arithmetic) and whose ≤ prefixes
agree. -/
theorem c9_high_span (k : Option RangedDate) (c : PlainDate) (d : Bool)
    (h : (keystoneDateToStatus k c d).baseline = .high) :
    ∃ lo hi, (keystoneDateToStatus k c d).baseline_low_date = some lo ∧
      (keystoneDateToStatus k c d).baseline_high_date = some hi ∧
      (parseRangedDateString hi).1 =
        addMonths (parseRangedDateString lo).1 BASELINE_LOW_TO_HIGH_DURATION ∧
      (parseRangedDateString hi).2 = (parseRangedDateString lo).2 := by
  cases k with
  | none => exact absurd h (by simp [keystoneDateToStatus])
  | some ds =>
    cases d with
    | true => exact absurd h (by simp [keystoneDateToStatus])
    | false =>
      simp only [keystoneDateToStatus, parseRangedDateString] at h ⊢
      by_cases h2 : cmpDate (toHighDate ds.date) c ≤ 0
      · rw [if_pos h2]
        exact ⟨_, _, rfl, rfl, rfl, rfl⟩
      · rw [if_neg h2] at h
        exact absurd h (by simp)

/-- C9 witness at a concrete high status. -/
theorem c9_high_span_witness :
    ∃ lo hi,
      (keystoneDateToStatus (some ⟨⟨2020, 1, 1⟩, false⟩) ⟨2025, 1, 1⟩
          false).baseline_low_date = some lo ∧
      (keystoneDateToStatus (some ⟨⟨2020, 1, 1⟩, false⟩) ⟨2025, 1, 1⟩
          false).baseline_high_date = some hi ∧
      (parseRangedDateString hi).1 =
        addMonths (parseRangedDateString lo).1 BASELINE_LOW_TO_HIGH_DURATION ∧
      (parseRangedDateString hi).2 = (parseRangedDateString lo).2 :=
  c9_high_span (some ⟨⟨2020, 1, 1⟩, false⟩) ⟨2025, 1, 1⟩ false (by decide)

/-- C2: the per-feature initial-support finder walks from
current().index down to 0: it returns no InitialSupport exactly when
the release examined first does not resolve to supported-plain; a
returned candidate is characterized by unbroken supported-plain
resolution up to the anchor with the stated termination behaviour at
the boundary below it (unknown gives ranged = true, unsupported or the
start of history gives ranged = false); and the returned text is the
candidate's version prefixed with "≤" iff ranged. -/
theorem c2_initial_support_finder (b : Browser) (g : Nat → Tri) (current : Nat)
    (hcur : b.currentIndex = .ok current) :
    (supportForBrowser b (fun i => .ok (g i)) = .ok none ↔ g current ≠ .yes) ∧
    (∀ r rng, supportWalk g current = some (r, rng) ↔ WalkSpec g current r rng) ∧
    (∀ isp, supportForBrowser b (fun i => .ok (g i)) = .ok (some isp) →
      supportWalk g current = some (isp.releaseIndex, isp.ranged) ∧
      isp.text = (if isp.ranged then "≤" else "") ++ isp.version) := by
  have helim := supportForBrowser_elim b (fun i => .ok (g i)) g current hcur
    (fun j hj => rfl)
  refine ⟨?_, ?_, ?_⟩
  · rw [helim]
    constructor
    · intro h
      rcases hw : supportWalk g current with w | ⟨idx, rng⟩
      · exact (supportWalk_none_iff g current).1 hw
      · rw [hw] at h
        dsimp only at h
        rcases hget : b.releases.get? idx with rd | rd <;> rw [hget] at h <;> dsimp only at h
        · exact Except.noConfusion h
        · exact Option.noConfusion (Except.ok.inj h)
    · intro h
      rw [(supportWalk_none_iff g current).2 h]
  · intro r rng
    exact supportWalk_some_iff g current r rng
  · intro isp h
    rw [helim] at h
    rcases hw : supportWalk g current with w | ⟨idx, rng⟩
    · rw [hw] at h
      dsimp only at h
      exact Option.noConfusion (Except.ok.inj h)
    · rw [hw] at h
      dsimp only at h
      rcases hget : b.releases.get? idx with rd | rd <;> rw [hget] at h <;> dsimp only at h
      · exact Except.noConfusion h
      · have heq : isp = mkInitialSupport idx rd rng := (Option.some.inj (Except.ok.inj h)).symm
        subst heq
        have hidx : (mkInitialSupport idx rd rng).releaseIndex = idx := rfl
        have hrng : (mkInitialSupport idx rd rng).ranged = rng := rfl
        rw [hidx, hrng]
        exact ⟨rfl, rfl⟩

/-- C2 witness at a concrete browser and resolution function. -/
theorem c2_initial_support_finder_witness :
    (supportForBrowser chromeCex (fun _ => Except.ok Tri.yes) = .ok none ↔
      Tri.yes ≠ Tri.yes) ∧
    (∀ r rng, supportWalk (fun _ => Tri.yes) 1 = some (r, rng) ↔
      WalkSpec (fun _ => Tri.yes) 1 r rng) ∧
    (∀ isp, supportForBrowser chromeCex (fun _ => Except.ok Tri.yes) = .ok (some isp) →
      supportWalk (fun _ => Tri.yes) 1 = some (isp.releaseIndex, isp.ranged) ∧
      isp.text = (if isp.ranged then "≤" else "") ++ isp.version) :=
  c2_initial_support_finder chromeCex (fun _ => Tri.yes) 1 (by decide)

theorem supportForBrowser_some_walk (b : Browser) (g : Nat → Tri) (current : Nat)
    (hcur : b.currentIndex = .ok current) (isp : InitialSupport)
    (h : supportForBrowser b (fun i => .ok (g i)) = .ok (some isp)) :
    supportWalk g current = some (isp.releaseIndex, isp.ranged) := by
  have helim := supportForBrowser_elim b (fun i => .ok (g i)) g current hcur
    (fun j hj => rfl)
  rw [helim] at h
  rcases hw : supportWalk g current with w | ⟨idx, rng⟩
  · rw [hw] at h
    dsimp only at h
    exact Option.noConfusion (Except.ok.inj h)
  · rw [hw] at h
    dsimp only at h
    rcases hget : b.releases.get? idx with rd | rd <;> rw [hget] at h <;> dsimp only at h
    · exact Except.noConfusion h
    · have heq : isp = mkInitialSupport idx rd rng := (Option.some.inj (Except.ok.inj h)).symm
      subst heq
      rfl

/-- C7 counterexample: in a browser whose current release (index 0,
version "1") is followed by a beta release (index 1, version "2"), a
feature supported from "1" and removed in "2" makes the finder return
the release at index 0, while release index 1 — which is ≥ 0 —
resolves at the feature level to unsupported. -/
theorem c7_counterexample :
    supportForBrowser c7Browser (featureResolver (some c7Record) c7Browser) =
        .ok (some ⟨0, none, "1", false, "1"⟩) ∧
      featureSupportedIn c7Browser [vaVr "1" "2"] 1 = .ok Tri.no ∧
      (0 : Nat) ≤ 1 := by
  refine ⟨?_, ?_, ?_⟩ <;> decide

/-- C7 amended: if the initial-support finder returns a release, then
every release from it up to the walk's anchor (the current release) —
rather than every later release outright — resolves at the feature
level to supported-plain or unknown, never to unsupported. -/
theorem c7_no_gap_up_to_current (b : Browser) (stmts : List StatementData)
    (g : Nat → Tri) (current : Nat) (isp : InitialSupport)
    (hcur : b.currentIndex = .ok current)
    (hres : ∀ i, i ≤ current → featureSupportedIn b stmts i = .ok (g i))
    (hfind : supportForBrowser b (fun i => .ok (g i)) = .ok (some isp)) :
    ∀ j, isp.releaseIndex ≤ j → j ≤ current →
      featureSupportedIn b stmts j = .ok Tri.yes ∨
      featureSupportedIn b stmts j = .ok Tri.unknown := by
  have hw := supportForBrowser_some_walk b g current hcur isp hfind
  obtain ⟨_, _, hall, _⟩ := supportWalk_some_spec g current isp.releaseIndex isp.ranged hw
  intro j hj1 hj2
  left
  rw [hres j hj2, hall j hj1 hj2]

/-- C7 witness: the amended theorem applied at a concrete browser,
feature and release. -/
theorem c7_no_gap_up_to_current_witness :
    featureSupportedIn chromeCex [vaOnly "1"] 1 = .ok Tri.yes ∨
      featureSupportedIn chromeCex [vaOnly "1"] 1 = .ok Tri.unknown :=
  c7_no_gap_up_to_current chromeCex [vaOnly "1"] (fun _ => Tri.yes) 1
    ⟨0, none, "1", false, "1"⟩ (by decide)
    (fun i hi => by interval_cases i <;> decide) (by decide)
    1 (by decide) (by decide)

/-- C3 counterexample: with releases "1" and "2", the statement
{version_added: "2", version_removed: "≤1"} has S = index 1 and U =
index 0; at release index 1 the claim's "Unsupported exactly when
release ≥ U or release ∈ [initial, S)" demands Unsupported (1 ≥ U),
yet supportedInDetails returns Supported because release == S is
tested first. -/
theorem c3_counterexample :
    isFixedVersion (some "2") = true ∧
      isRangedVersion (some "≤1") = true ∧
      (vaVr "2" "≤1").version_added = some "2" ∧
      (vaVr "2" "≤1").version_removed = some "≤1" ∧
      chromeCex.versionIndex "2" = .ok 1 ∧
      chromeCex.versionIndex (stripRanged "≤1") = .ok 0 ∧
      (0 : Nat) ≤ 1 ∧
      supportedInDetails chromeCex (vaVr "2" "≤1") 1 ≠ .ok SupportDetail.unsupported ∧
      supportedInDetails chromeCex (vaVr "2" "≤1") 1 = .ok (SupportDetail.supported none) := by
  refine ⟨?_, ?_, ?_, ?_, ?_, ?_, ?_, ?_, ?_⟩ <;> decide

/-- C3 amended: for a statement with exact version_added and ranged
version_removed, resolving to S and U, supportedInDetails returns
Supported (with the statement's qualifications, if any) exactly when
release == S; Unsupported exactly when release ≠ S and (release ≥ U or
release ∈ [initial, S)); and Unknown otherwise. -/
theorem c3_exact_added_ranged_removed (b : Browser) (st : StatementData) (va vr : String)
    (S U release : Nat)
    (hva : st.version_added = some va) (hfix : isFixedVersion (some va) = true)
    (hvr : st.version_removed = some vr) (hrng : isRangedVersion (some vr) = true)
    (hS : b.versionIndex va = .ok S)
    (hU : b.versionIndex (stripRanged vr) = .ok U) :
    (release = S →
      supportedInDetails b st release = .ok
        (if qualsNonempty (statementToQualifications st) then
          SupportDetail.supported (some (statementToQualifications st))
         else SupportDetail.supported none)) ∧
    (release ≠ S → (U ≤ release ∨ release < S) →
      supportedInDetails b st release = .ok SupportDetail.unsupported) ∧
    (release ≠ S → ¬ U ≤ release → ¬ release < S →
      supportedInDetails b st release = .ok SupportDetail.unknownSupport) := by
  have hrv : startsWithLe va = false := by
    simpa [isFixedVersion] using hfix
  have hred : supportedInDetails b st release = .ok
      (if release = S then
        (if qualsNonempty (statementToQualifications st) then
          SupportDetail.supported (some (statementToQualifications st))
         else SupportDetail.supported none)
       else if inRangeIdx release U none || inRangeIdx release 0 (some S) then
        SupportDetail.unsupported
       else SupportDetail.unknownSupport) := by
    simp only [supportedInDetails, hva]
    rw [hvr]
    have hA : (isRangedVersion (some va) && isRangedVersion (some vr)) = false := by
      simp [isRangedVersion, hrv]
    have hB : (isFixedVersion (some va) && isRangedVersion (some vr)) = true := by
      rw [hfix, hrng]
      rfl
    rw [hA, hB]
    simp only [Bool.false_eq_true, if_false, if_true]
    simp only [hS, hU, exceptOkBind, exceptPure]
    split_ifs <;> rfl
  refine ⟨?_, ?_, ?_⟩
  · intro h
    rw [hred, if_pos h]
  · intro hne hcond
    rw [hred, if_neg hne, if_pos]
    simp only [inRangeIdx, Bool.or_eq_true, Bool.and_eq_true, decide_eq_true_eq]
    omega
  · intro hne h1 h2
    rw [hred, if_neg hne, if_neg]
    simp only [inRangeIdx, Bool.or_eq_true, Bool.and_eq_true, decide_eq_true_eq]
    omega

/-- C3 witness: the amended theorem applied at a concrete statement
and release. -/
theorem c3_exact_added_ranged_removed_witness :
    supportedInDetails chromeCex (vaVr "1" "≤2") 0 = .ok
      (if qualsNonempty (statementToQualifications (vaVr "1" "≤2")) then
        SupportDetail.supported (some (statementToQualifications (vaVr "1" "≤2")))
       else SupportDetail.supported none) :=
  (c3_exact_added_ranged_removed chromeCex (vaVr "1" "≤2") "1" "≤2" 0 1 0
    (by decide) (by decide) (by decide) (by decide) (by decide) (by decide)).1 rfl

/-- C4: findKeystoneDate returns null when any browser's result is
unknown (undefined) or any InitialSupport's release date is null;
otherwise it returns the date of a chosen InitialSupport that is
maximal under the order "later release date wins, and on a date tie a
ranged value precedes an exact value" (so an exact value is chosen on
ties), and the textual form carries the ≤ prefix exactly when the
chosen InitialSupport is ranged. -/
theorem c4_findKeystoneDate (l : List (Option InitialSupport)) :
    ((none ∈ l ∨ ∃ i, some i ∈ l ∧ i.releaseDate = none) → findKeystoneDate l = none) ∧
    (l ≠ [] → none ∉ l → (∀ i, some i ∈ l → i.releaseDate ≠ none) →
      ∃ chosen dt, some chosen ∈ l ∧
        (∀ x, some x ∈ l → keystoneCompare x chosen ≤ 0) ∧
        chosen.releaseDate = some dt ∧
        findKeystoneDate l = some { date := dt, ranged := chosen.ranged }) := by
  constructor
  · exact findKeystoneDate_none_of l
  · intro hne hnu hdates
    obtain ⟨chosen, dt, hmem, hmax, hdt, hout⟩ := findKeystoneDate_some_spec l hne hnu hdates
    exact ⟨chosen, dt, List.reduceOption_mem_iff.1 hmem,
      fun x hx => hmax x (List.reduceOption_mem_iff.2 hx), hdt, hout⟩

/-- C5: collateSupport returns a map whose browsers are exactly the
union of the input maps' browsers (each exactly once); a browser any
input mapped to unknown aggregates to unknown; otherwise the aggregate
is an input InitialSupport maximal under compareInitialSupport (higher
release index wins; on a tie the exact value beats the ranged one). -/
theorem c5_collateSupport (supports : List SupportMap) :
    (∀ b v, (b, v) ∈ collateSupport supports → ∃ v2, entryOf supports b v2) ∧
    (∀ b v, entryOf supports b v → ∃ v2, (b, v2) ∈ collateSupport supports) ∧
    ((collateSupport supports).map Prod.fst).Nodup ∧
    (∀ b, entryOf supports b none → (b, none) ∈ collateSupport supports) ∧
    (∀ b, (∃ v, entryOf supports b v) → ¬ entryOf supports b none →
      ∃ chosen, (b, some chosen) ∈ collateSupport supports ∧
        entryOf supports b (some chosen) ∧
        ∀ x, entryOf supports b (some x) → compareInitialSupport x chosen ≤ 0) := by
  refine ⟨?_, ?_, ?_, ?_, ?_⟩
  · intro b v h
    obtain ⟨l, hl, _⟩ := (mem_collateSupport_iff supports b v).1 h
    have hvals := mem_collateGroups_eq supports b l hl
    have hnn := collateGroups_vals_ne_nil supports (b, l) hl
    obtain ⟨x, hx⟩ := List.exists_mem_of_ne_nil l hnn
    refine ⟨x, (mem_perBrowserVals supports b x).1 ?_⟩
    rwa [← hvals]
  · intro b v h
    have hv : v ∈ perBrowserVals supports b := (mem_perBrowserVals supports b v).2 h
    have hne : perBrowserVals supports b ≠ [] := List.ne_nil_of_mem hv
    obtain ⟨l, hl⟩ := (exists_collateGroup_iff supports b).2 hne
    exact ⟨_, (mem_collateSupport_iff supports b _).2 ⟨l, hl, rfl⟩⟩
  · have he : (collateSupport supports).map Prod.fst = (collateGroups supports).map Prod.fst := by
      simp [collateSupport, List.map_map, Function.comp_def]
    rw [he]
    exact collateGroups_keys_nodup supports
  · intro b h
    have hv : (none : Option InitialSupport) ∈ perBrowserVals supports b :=
      (mem_perBrowserVals supports b none).2 h
    have hne : perBrowserVals supports b ≠ [] := List.ne_nil_of_mem hv
    obtain ⟨l, hl⟩ := (exists_collateGroup_iff supports b).2 hne
    have hvals := mem_collateGroups_eq supports b l hl
    refine (mem_collateSupport_iff supports b none).2 ⟨l, hl, ?_⟩
    rw [if_pos]
    exact List.elem_iff.2 (by rwa [hvals])
  · intro b hex hnone
    obtain ⟨v, hv⟩ := hex
    have hvm : v ∈ perBrowserVals supports b := (mem_perBrowserVals supports b v).2 hv
    have hne : perBrowserVals supports b ≠ [] := List.ne_nil_of_mem hvm
    obtain ⟨l, hl⟩ := (exists_collateGroup_iff supports b).2 hne
    have hvals := mem_collateGroups_eq supports b l hl
    have hnu : (none : Option InitialSupport) ∉ l := by
      intro hcontra
      exact hnone ((mem_perBrowserVals supports b none).1 (by rwa [← hvals]))
    have hlne : l ≠ [] := collateGroups_vals_ne_nil supports (b, l) hl
    obtain ⟨chosen, hchosen⟩ :=
      sortLast_isSome compareInitialSupport l.reduceOption (reduceOption_ne_nil l hlne hnu)
    obtain ⟨hmem, hmax⟩ := sortLast_spec compareInitialSupport cmpIS_total cmpIS_trans
      l.reduceOption chosen hchosen
    have hcf : l.contains none = false := by
      rw [Bool.eq_false_iff]
      intro hc
      exact hnu (List.elem_iff.1 hc)
    refine ⟨chosen, ?_, ?_, ?_⟩
    · refine (mem_collateSupport_iff supports b (some chosen)).2 ⟨l, hl, ?_⟩
      rw [hcf]
      simp [hchosen]
    · refine (mem_perBrowserVals supports b (some chosen)).1 ?_
      rw [← hvals]
      exact List.reduceOption_mem_iff.1 hmem
    · intro x hx
      refine hmax x (List.reduceOption_mem_iff.2 ?_)
      rw [hvals]
      exact (mem_perBrowserVals supports b (some x)).2 hx

theorem mem_concatVals (statuses : List KeyStatus) (v : Option InitialSupport) :
    v ∈ (statuses.map (fun s => s.support.map (fun p => p.2))).flatten ↔
      ∃ b, entryOf (statuses.map (fun s => s.support)) b v := by
  simp only [List.mem_flatten, List.mem_map, entryOf]
  constructor
  · rintro ⟨lv, ⟨s, hs, rfl⟩, hv⟩
    obtain ⟨p, hp, hpv⟩ := List.mem_map.1 hv
    refine ⟨p.1, s.support, ⟨s, hs, rfl⟩, ?_⟩
    rw [← hpv]
    simpa using hp
  · rintro ⟨b, m, ⟨s, hs, rfl⟩, hbv⟩
    exact ⟨s.support.map (fun p => p.2), ⟨s, hs, rfl⟩, List.mem_map.2 ⟨(b, v), hbv, rfl⟩⟩

theorem mem_collatedVals (supports : List SupportMap) (v : Option InitialSupport) :
    v ∈ (collateSupport supports).map (fun p => p.2) ↔
      ∃ b, (b, v) ∈ collateSupport supports := by
  simp only [List.mem_map]
  constructor
  · rintro ⟨p, hp, rfl⟩
    exact ⟨p.1, by simpa using hp⟩
  · rintro ⟨b, hb⟩
    exact ⟨(b, v), hb, rfl⟩

theorem collate_value_inv (supports : List SupportMap) (b : String) (v : Option InitialSupport)
    (h : (b, v) ∈ collateSupport supports)
    (hnone : (none : Option InitialSupport) ∉ perBrowserVals supports b) :
    ∃ chosen, v = some chosen ∧
      chosen ∈ (perBrowserVals supports b).reduceOption ∧
      ∀ x ∈ (perBrowserVals supports b).reduceOption, compareInitialSupport x chosen ≤ 0 := by
  obtain ⟨l, hl, hv⟩ := (mem_collateSupport_iff supports b v).1 h
  have hvals := mem_collateGroups_eq supports b l hl
  subst hvals
  have hlne : perBrowserVals supports b ≠ [] :=
    collateGroups_vals_ne_nil supports (b, _) hl
  have hcf : (perBrowserVals supports b).contains none = false := by
    rw [Bool.eq_false_iff]
    intro hc
    exact hnone (List.elem_iff.1 hc)
  rw [hcf] at hv
  simp only [Bool.false_eq_true, if_false] at hv
  obtain ⟨chosen, hchosen⟩ := sortLast_isSome compareInitialSupport
    (perBrowserVals supports b).reduceOption (reduceOption_ne_nil _ hlne hnone)
  obtain ⟨hmem, hmax⟩ := sortLast_spec compareInitialSupport cmpIS_total cmpIS_trans
    _ chosen hchosen
  rw [hchosen] at hv
  exact ⟨chosen, hv, hmem, hmax⟩

/-- C6 counterexample: on concrete compat data with two keys whose
chrome InitialSupports are (index 1, date 2020-01-01) and (index 0,
date null), the keystone that computeBaseline computes over the
concatenation of per-key values is null, while applying the keystone
rules to the aggregated SupportMap from collateSupport yields
2020-01-01 — the two sides of the claimed equality differ. -/
theorem c6_counterexample :
    (["api.A", "api.B"].mapM (fun k => calculate k cexCompat) = Except.ok cexStatuses) ∧
      keystoneViaConcat cexStatuses = none ∧
      keystoneViaCollated cexStatuses =
        some { date := ⟨2020, 1, 1⟩, ranged := false } := by
  refine ⟨?_, ?_, ?_⟩ <;> decide

/-- C6 amended: the keystone date computeBaseline computes (over the
concatenation of all per-key InitialSupport values) equals the
keystone of the aggregated SupportMap, provided every collected
InitialSupport has a non-null release date and, within each browser,
the collation order (release index, exact over ranged) is consistent
with the keystone order (release date, exact over ranged). -/
theorem c6_keystone_refinement (statuses : List KeyStatus)
    (h1 : ∀ b x, entryOf (statuses.map (fun s => s.support)) b (some x) →
      x.releaseDate ≠ none)
    (h2 : ∀ b x y, entryOf (statuses.map (fun s => s.support)) b (some x) →
      entryOf (statuses.map (fun s => s.support)) b (some y) →
      compareInitialSupport x y ≤ 0 → keystoneCompare x y ≤ 0) :
    keystoneViaConcat statuses = keystoneViaCollated statuses := by
  by_cases hn : ∃ b, entryOf (statuses.map (fun s => s.support)) b none
  · obtain ⟨b, hb⟩ := hn
    have hA : (none : Option InitialSupport) ∈
        (statuses.map (fun s => s.support.map (fun p => p.2))).flatten :=
      (mem_concatVals statuses none).2 ⟨b, hb⟩
    have hv : (none : Option InitialSupport) ∈
        perBrowserVals (statuses.map (fun s => s.support)) b :=
      (mem_perBrowserVals _ b none).2 hb
    have hne : perBrowserVals (statuses.map (fun s => s.support)) b ≠ [] :=
      List.ne_nil_of_mem hv
    obtain ⟨l, hl⟩ := (exists_collateGroup_iff _ b).2 hne
    have hvals := mem_collateGroups_eq _ b l hl
    have hmemB : (b, (none : Option InitialSupport)) ∈
        collateSupport (statuses.map (fun s => s.support)) := by
      refine (mem_collateSupport_iff _ b none).2 ⟨l, hl, ?_⟩
      rw [if_pos]
      exact List.elem_iff.2 (by rwa [hvals])
    have hB : (none : Option InitialSupport) ∈
        (collateSupport (statuses.map (fun s => s.support))).map (fun p => p.2) :=
      (mem_collatedVals _ none).2 ⟨b, hmemB⟩
    rw [keystoneViaConcat, keystoneViaCollated,
      findKeystoneDate_none_of _ (Or.inl hA), findKeystoneDate_none_of _ (Or.inl hB)]
  · push_neg at hn
    by_cases hA0 : (statuses.map (fun s => s.support.map (fun p => p.2))).flatten = []
    · have hB0 : (collateSupport (statuses.map (fun s => s.support))).map (fun p => p.2) = [] := by
        rw [List.eq_nil_iff_forall_not_mem]
        intro v hv
        obtain ⟨b, hbv⟩ := (mem_collatedVals _ v).1 hv
        obtain ⟨l, hl, _⟩ := (mem_collateSupport_iff _ b v).1 hbv
        have hvals := mem_collateGroups_eq _ b l hl
        have hnn := collateGroups_vals_ne_nil _ (b, l) hl
        obtain ⟨x, hx⟩ := List.exists_mem_of_ne_nil l hnn
        have : x ∈ perBrowserVals (statuses.map (fun s => s.support)) b := by rwa [← hvals]
        have hxA : x ∈ (statuses.map (fun s => s.support.map (fun p => p.2))).flatten :=
          (mem_concatVals statuses x).2 ⟨b, (mem_perBrowserVals _ b x).1 this⟩
        rw [hA0] at hxA
        exact List.not_mem_nil x hxA
      rw [keystoneViaConcat, keystoneViaCollated, hA0, hB0]
    · have hnuA : (none : Option InitialSupport) ∉
          (statuses.map (fun s => s.support.map (fun p => p.2))).flatten := by
        intro hc
        obtain ⟨b, hb⟩ := (mem_concatVals statuses none).1 hc
        exact hn b hb
      have hdatesA : ∀ i, some i ∈
          (statuses.map (fun s => s.support.map (fun p => p.2))).flatten →
          i.releaseDate ≠ none := by
        intro i hi
        obtain ⟨b, hb⟩ := (mem_concatVals statuses (some i)).1 hi
        exact h1 b i hb
      obtain ⟨K, dtK, hKmem, hKmax, hKdt, hKout⟩ :=
        findKeystoneDate_some_spec _ hA0 hnuA hdatesA
      have hBne : (collateSupport (statuses.map (fun s => s.support))).map (fun p => p.2) ≠ [] := by
        obtain ⟨x, hx⟩ := List.exists_mem_of_ne_nil _ hA0
        obtain ⟨b, hb⟩ := (mem_concatVals statuses x).1 hx
        have hne : perBrowserVals (statuses.map (fun s => s.support)) b ≠ [] :=
          List.ne_nil_of_mem ((mem_perBrowserVals _ b x).2 hb)
        obtain ⟨l, hl⟩ := (exists_collateGroup_iff _ b).2 hne
        have : (b, _) ∈ collateSupport (statuses.map (fun s => s.support)) :=
          (mem_collateSupport_iff _ b _).2 ⟨l, hl, rfl⟩
        exact List.ne_nil_of_mem ((mem_collatedVals _ _).2 ⟨b, this⟩)
      have hnonePer : ∀ b, (none : Option InitialSupport) ∉
          perBrowserVals (statuses.map (fun s => s.support)) b := by
        intro b hc
        exact hn b ((mem_perBrowserVals _ b none).1 hc)
      have hnuB : (none : Option InitialSupport) ∉
          (collateSupport (statuses.map (fun s => s.support))).map (fun p => p.2) := by
        intro hc
        obtain ⟨b, hb⟩ := (mem_collatedVals _ none).1 hc
        obtain ⟨chosen, hch, _, _⟩ := collate_value_inv _ b none hb (hnonePer b)
        exact Option.noConfusion hch
      have hdatesB : ∀ i, some i ∈
          (collateSupport (statuses.map (fun s => s.support))).map (fun p => p.2) →
          i.releaseDate ≠ none := by
        intro i hi
        obtain ⟨b, hb⟩ := (mem_collatedVals _ (some i)).1 hi
        obtain ⟨chosen, hch, hmem, _⟩ := collate_value_inv _ b (some i) hb (hnonePer b)
        have : i = chosen := Option.some.inj hch
        subst this
        refine h1 b i ?_
        exact (mem_perBrowserVals _ b (some i)).1 (List.reduceOption_mem_iff.1 hmem)
      obtain ⟨K', dtK', hK'mem, hK'max, hK'dt, hK'out⟩ :=
        findKeystoneDate_some_spec _ hBne hnuB hdatesB
      have hKK' : keystoneCompare K K' ≤ 0 := by
        have hKA : some K ∈ (statuses.map (fun s => s.support.map (fun p => p.2))).flatten :=
          List.reduceOption_mem_iff.1 hKmem
        obtain ⟨b, hb⟩ := (mem_concatVals statuses (some K)).1 hKA
        have hKper : K ∈ (perBrowserVals (statuses.map (fun s => s.support)) b).reduceOption :=
          List.reduceOption_mem_iff.2 ((mem_perBrowserVals _ b (some K)).2 hb)
        have hne : perBrowserVals (statuses.map (fun s => s.support)) b ≠ [] :=
          List.ne_nil_of_mem (List.reduceOption_mem_iff.1 hKper)
        obtain ⟨l, hl⟩ := (exists_collateGroup_iff _ b).2 hne
        have hwmem : (b, _) ∈ collateSupport (statuses.map (fun s => s.support)) :=
          (mem_collateSupport_iff _ b _).2 ⟨l, hl, rfl⟩
        obtain ⟨w, hw, hwper, hwmax⟩ := collate_value_inv _ b _ hwmem (hnonePer b)
        have hKw : compareInitialSupport K w ≤ 0 := hwmax K hKper
        have hKwk : keystoneCompare K w ≤ 0 :=
          h2 b K w ((mem_perBrowserVals _ b (some K)).1 (List.reduceOption_mem_iff.1 hKper))
            ((mem_perBrowserVals _ b (some w)).1 (List.reduceOption_mem_iff.1 hwper)) hKw
        have hwB : some w ∈
            (collateSupport (statuses.map (fun s => s.support))).map (fun p => p.2) := by
          refine (mem_collatedVals _ (some w)).2 ⟨b, ?_⟩
          rwa [hw] at hwmem
        have hwK' : keystoneCompare w K' ≤ 0 :=
          hK'max w (List.reduceOption_mem_iff.2 hwB)
        exact kcmp_trans K w K' hKwk hwK'
      have hK'K : keystoneCompare K' K ≤ 0 := by
        have hK'B : some K' ∈
            (collateSupport (statuses.map (fun s => s.support))).map (fun p => p.2) :=
          List.reduceOption_mem_iff.1 hK'mem
        obtain ⟨b, hb⟩ := (mem_collatedVals _ (some K')).1 hK'B
        obtain ⟨chosen, hch, hmem, _⟩ := collate_value_inv _ b (some K') hb (hnonePer b)
        have : K' = chosen := Option.some.inj hch
        subst this
        have hK'A : some K' ∈ (statuses.map (fun s => s.support.map (fun p => p.2))).flatten :=
          (mem_concatVals statuses (some K')).2
            ⟨b, (mem_perBrowserVals _ b (some K')).1 (List.reduceOption_mem_iff.1 hmem)⟩
        exact hKmax K' (List.reduceOption_mem_iff.2 hK'A)
      obtain ⟨hdeq, hreq⟩ := kcmp_antisymm K K' hKK' hK'K
      rw [hKdt, hK'dt] at hdeq
      simp only [Option.getD_some] at hdeq
      rw [keystoneViaConcat, keystoneViaCollated, hKout, hK'out, hdeq, hreq]

/-- C6 witness: the amended theorem applied to one concrete per-key
SupportMap. -/
theorem c6_keystone_refinement_witness :
    keystoneViaConcat
        [⟨false, [("chrome", some ⟨0, some ⟨2020, 1, 1⟩, "1", false, "1"⟩)]⟩] =
      keystoneViaCollated
        [⟨false, [("chrome", some ⟨0, some ⟨2020, 1, 1⟩, "1", false, "1"⟩)]⟩] :=
  c6_keystone_refinement
    [⟨false, [("chrome", some ⟨0, some ⟨2020, 1, 1⟩, "1", false, "1"⟩)]⟩]
    (by
      intro b x hx
      obtain ⟨m, hm, hbx⟩ := hx
      simp only [List.map_cons, List.map_nil, List.mem_singleton] at hm
      subst hm
      simp only [List.mem_singleton, Prod.mk.injEq, Option.some.injEq] at hbx
      obtain ⟨_, rfl⟩ := hbx
      decide)
    (by
      intro b x y hx hy
      obtain ⟨m, hm, hbx⟩ := hx
      obtain ⟨m2, hm2, hby⟩ := hy
      simp only [List.map_cons, List.map_nil, List.mem_singleton] at hm hm2
      subst hm
      subst hm2
      simp only [List.mem_singleton, Prod.mk.injEq, Option.some.injEq] at hbx hby
      obtain ⟨_, rfl⟩ := hbx
      obtain ⟨_, rfl⟩ := hby
      intro _
      decide)

/-- C10 counterexample: for the key a.b over a tree in which path a.b
does not exist (so no dotted prefix of a.b carries a __compat record),
computeBaseline with checkAncestors does not return the empty status —
it raises the query error. -/
theorem c10_counterexample :
    dottedPrefixes "a.b" = ["a.b"] ∧
      (query "a.b" c10Compat.tree).isOk = false ∧
      (computeBaseline ⟨["a.b"], true⟩ c10Compat).isOk = false := by
  refine ⟨?_, ?_, ?_⟩ <;> decide

theorem withAncestorsGo_nil (tree : BcdNode) :
    ∀ (rest : List String) (current : String),
      (∀ p ∈ dottedPrefixesGo current rest, ∃ n, query p tree = .ok n ∧ nodeHasCompat n = false) →
      withAncestorsGo tree current rest = .ok [] := by
  intro rest
  induction rest with
  | nil => intro current _; rfl
  | cons item rest ih =>
    intro current h
    obtain ⟨n, hq, hc⟩ := h (current ++ "." ++ item) (by simp [dottedPrefixesGo])
    simp only [withAncestorsGo, hq, exceptOkBind]
    have htail := ih (current ++ "." ++ item)
      (fun p hp => h p (by simp [dottedPrefixesGo, hp]))
    simp only [htail, exceptOkBind, hc, Bool.false_eq_true, if_false, exceptPure]

theorem withAncestors_of_prefixes (key : String) (c : CompatData)
    (h : ∀ p ∈ dottedPrefixes key, ∃ n, query p c.tree = .ok n ∧ nodeHasCompat n = false) :
    withAncestors key c = .ok [] := by
  unfold withAncestors
  unfold dottedPrefixes at h
  rcases hsplit : splitDots key with _ | ⟨first, rest⟩
  · rfl
  · rw [hsplit] at h
    exact withAncestorsGo_nil c.tree rest first h

theorem mapM_withAncestors_nil (c : CompatData) (ks : List String)
    (h : ∀ k ∈ ks, withAncestors k c = .ok []) :
    ks.mapM (fun key => withAncestors key c) = .ok (ks.map (fun _ => ([] : List String))) := by
  induction ks with
  | nil => rfl
  | cons k t ih =>
    rw [List.mapM_cons]
    simp only [h k (by simp), exceptOkBind, ih (fun k2 hk2 => h k2 (by simp [hk2])),
      exceptOkBind, exceptPure, List.map_cons]

theorem flatten_map_nil (ks : List String) :
    (ks.map (fun _ => ([] : List String))).flatten = [] := by
  induction ks with
  | nil => rfl
  | cons k t ih => simp [ih]

/-- C10 amended: computeBaseline returns the empty false status, with
no error, when the evaluated key list is empty — because compatKeys is
empty, or because checkAncestors is true and every dotted prefix of
length ≥ 2 of every given key exists in the tree (querying it
succeeds) and carries no __compat record.  (The counterexample forces
the existence condition: a prefix that is missing from the tree also
carries no __compat record, but then the query raises instead.) -/
theorem c10_empty_keys (fs : FeatureSelector) (c : CompatData)
    (h : fs.compatKeys = [] ∨
      (fs.checkAncestors = true ∧
        ∀ key ∈ fs.compatKeys, ∀ p ∈ dottedPrefixes key,
          ∃ n, query p c.tree = .ok n ∧ nodeHasCompat n = false)) :
    computeBaseline fs c = .ok emptyBaselineStatus := by
  obtain ⟨keys, ancestors⟩ := fs
  rcases h with h | ⟨hca, h⟩
  · simp only at h
    subst h
    cases ancestors <;> rfl
  · simp only at hca h
    subst hca
    have hW : ∀ k ∈ keys, withAncestors k c = .ok [] :=
      fun k hk => withAncestors_of_prefixes k c (h k hk)
    simp only [computeBaseline, if_true, mapM_withAncestors_nil c keys hW,
      exceptOkBind, exceptPure, flatten_map_nil]
    rfl

/-- C10 witness: the amended theorem applied at an empty key list. -/
theorem c10_empty_keys_witness :
    computeBaseline ⟨[], false⟩ c10Compat = .ok emptyBaselineStatus :=
  c10_empty_keys ⟨[], false⟩ c10Compat (Or.inl rfl)
